import Mathlib

/-!
Verification of the schema-rewriting pass of `AbstractFileBasedSpec`
(`airbyte_cdk/sources/file_based/config/abstract_file_based_spec.py`).

The Python code operates on JSON-compatible nested dictionaries.  We embed
those as the inductive type `Json` below, with objects as ordered
association lists (Python dicts preserve insertion order).  Python-side
conventions reflected in the embedding:

* dict assignment `d[k] = v` replaces the value in place when `k` is
  already a key (keeping its position) and appends otherwise (`setKey`);
* `d.pop(k)` removes the binding (`popKey`; keys of a Python dict are
  unique, so removing every binding with that key is the same operation);
* a failing key lookup, a failing list index, or applying a dict/list
  operation to a value of the wrong shape raises; we model every such
  raise as `Option.none`.  The embedding uniformly reads every operand
  of `in`, subscripting and iteration as a mapping or a sequence and
  turns the other cases into structural errors; CPython agrees on
  mappings and sequences and raises at most non-mapping operands too,
  but has non-raising substring, membership and empty-iteration
  semantics at a few of them (e.g. `"allOf" in x` for a string `x`).
  The decidable predicate `shapedReplace` further below delimits, case
  by case, the trees on which the embedding's error boundary is
  CPython's; the error-domain claim (C5) is stated on that region, and
  the remaining claims concern mapping-shaped nodes on which the two
  agree outright.

The transformation functions mutate one tree through aliases into it;
since the tree is acyclic and internally unshared (it is produced by
`copy.deepcopy`), in-place mutation of the sub-tree reached by a fixed
path is the same as functional read-transform-write-back along that
path, which is how the embedding expresses it.  Object identity and the
deep-copy isolation property are treated separately with the addressed
tree type `AJson` further below.
-/

namespace AirbyteFileBasedSpec

/-- A JSON-compatible value: the shape of the schema trees the Python
code manipulates.  Objects are insertion-ordered association lists. -/
inductive Json where
  | null : Json
  | bool : Bool → Json
  | num : Int → Json
  | str : String → Json
  | arr : List Json → Json
  | obj : List (String × Json) → Json

/-- First value bound to a key in an association list (Python dict lookup). -/
def getKey {α : Type} : List (String × α) → String → Option α
  | [], _ => none
  | (k, v) :: rest, key => if k = key then some v else getKey rest key

/-- Python dict assignment: replace in place if the key is present
(keeping its position), append otherwise. -/
def setKey {α : Type} : List (String × α) → String → α → List (String × α)
  | [], key, val => [(key, val)]
  | (k, v) :: rest, key, val =>
      if k = key then (k, val) :: rest else (k, v) :: setKey rest key val

/-- Python `dict.pop`: remove the binding for a key.  (Keys of a Python
dict are unique; removing every binding with the key is the same.) -/
def popKey {α : Type} : List (String × α) → String → List (String × α)
  | [], _ => []
  | (k, v) :: rest, key =>
      if k = key then popKey rest key else (k, v) :: popKey rest key

/-- Membership of a key in an association list. -/
def hasKeyF {α : Type} (fs : List (String × α)) (k : String) : Bool :=
  (getKey fs k).isSome

/-- Key lookup on a `Json` value: defined on objects, absent otherwise. -/
def Json.lookup : Json → String → Option Json
  | .obj fs, k => getKey fs k
  | _, _ => none

/-- The Python membership test `k in j` for a mapping `j`. -/
def Json.hasKey (j : Json) (k : String) : Bool :=
  (j.lookup k).isSome

/-- Chained key lookup `j[k1][k2]...`, `none` as soon as a step fails. -/
def getPath : Json → List String → Option Json
  | j, [] => some j
  | j, k :: ks =>
      match j.lookup k with
      | some v => getPath v ks
      | none => none

/-- Write-back of a new value at the end of a key path (models in-place
mutation of the sub-dictionary reached by that chain of lookups).  Fails
exactly when the lookup chain fails. -/
def setPath : Json → List String → Json → Option Json
  | _, [], v => some v
  | .obj fs, k :: ks, v =>
      match getKey fs k with
      | some w => Option.map (fun w2 => Json.obj (setKey fs k w2)) (setPath w ks v)
      | none => none
  | _, _ :: _, _ => none

/-- The fixed path `properties.streams.items.properties` to the per-stream
property dictionary (the Stream Schema Node of the spec). -/
def streamPropsPath : List String := ["properties", "streams", "items", "properties"]

/-- The fixed path to the per-stream `format` schema. -/
def formatPath : List String := streamPropsPath ++ ["format"]

/-- The body of the inner loop of `replace_enum_allOf_and_anyOf`, applied
to one field schema `object_property` of a format alternative:

    if "allOf" in object_property and "enum" in object_property["allOf"][0]:
        object_property["enum"] = object_property["allOf"][0]["enum"]
        object_property.pop("allOf")

`none` models the raising cases (field schema not a mapping; `allOf`
present but its value not indexable at 0).  The two membership tests
are read as mapping-key tests: on non-mapping operands CPython instead
has substring/membership semantics (a string field schema whose text
lacks `allOf` is skipped, not raised on; an `allOf` first element such
as the string `"xenumx"` answers `"enum" in _` positively and then
raises on the subscript), so this definition matches the CPython run
exactly on the `fieldShaped` schemas delimited below and is
deliberately coarser outside them. -/
def transformProperty (op : Json) : Option Json :=
  match op with
  | .obj fs =>
      match getKey fs "allOf" with
      | none => some op
      | some (.arr (first :: _)) =>
          match first.lookup "enum" with
          | some ev => some (.obj (popKey (setKey fs "enum" ev) "allOf"))
          | none => some op
      | some _ => none
  | _ => none

/-- Transform every value of an association list, failing if any single
transformation fails (models a loop whose body may raise). -/
def mapValues {α β : Type} (f : α → Option β) : List (String × α) → Option (List (String × β))
  | [] => some []
  | (k, v) :: rest =>
      match f v, mapValues f rest with
      | some v2, some rest2 => some ((k, v2) :: rest2)
      | _, _ => none

/-- Transform every element of a list, failing if any element fails. -/
def optionMap {α β : Type} (f : α → Option β) : List α → Option (List β)
  | [] => some []
  | x :: xs =>
      match f x, optionMap f xs with
      | some y, some ys => some (y :: ys)
      | _, _ => none

/-- One iteration of the outer loop of `replace_enum_allOf_and_anyOf`:

    for key in format["properties"]:
        object_property = format["properties"][key]
        ...

`format["properties"]` raises if the alternative is not a mapping or has
no `properties` key. -/
def transformAlternative (alt : Json) : Option Json :=
  match alt with
  | .obj fs =>
      match getKey fs "properties" with
      | some (.obj pfs) =>
          Option.map (fun pfs2 => Json.obj (setKey fs "properties" (Json.obj pfs2)))
            (mapValues transformProperty pfs)
      | _ => none
  | _ => none

/-- The `format`-container part of `replace_enum_allOf_and_anyOf`:

    objects_to_check = schema[...]["format"]
    if "additionalProperties" in objects_to_check:
        objects_to_check["additionalProperties"]["oneOf"] =
            objects_to_check["additionalProperties"].pop("anyOf", [])
        for format in objects_to_check["additionalProperties"]["oneOf"]:
            ... (transformAlternative)

The pop-with-default never raises; when `anyOf` is absent `oneOf` is set
to a fresh empty list and the loop body never runs.  The loop mutates
the alternative dicts in place inside the stored list, so the net effect
is that `oneOf` holds the element-wise transformed list.  The gate
`"additionalProperties" in objects_to_check` is read as a mapping-key
test and the loop iterand as a sequence: on a string or list format
node CPython instead substring/membership-tests (and can skip without
raising), and a `for` over an empty string or empty mapping `anyOf`
value iterates zero times; this definition matches the CPython run
exactly on `formatShaped` nodes delimited below and is deliberately
coarser outside them. -/
def rewriteFormat (fmt : Json) : Option Json :=
  match fmt with
  | .obj fs =>
      match getKey fs "additionalProperties" with
      | none => some fmt
      | some (.obj apFs) =>
          match (getKey apFs "anyOf").getD (Json.arr []) with
          | .arr alts =>
              Option.map (fun alts2 =>
                  Json.obj (setKey fs "additionalProperties"
                    (Json.obj (setKey (popKey apFs "anyOf") "oneOf" (Json.arr alts2)))))
                (optionMap transformAlternative alts)
          | _ => none
      | some _ => none
  | _ => none

/-- One iteration of the `properties_to_change` loop:

    schema[...][p]["oneOf"] = schema[...][p].pop("anyOf")

The right-hand side is evaluated first (the unconditional `pop`, which
raises when `anyOf` is absent), then `oneOf` is assigned. -/
def renameAnyOf (t : Json) (p : String) : Option Json :=
  match getPath t (streamPropsPath ++ [p]) with
  | some (.obj fs) =>
      match getKey fs "anyOf" with
      | some v => setPath t (streamPropsPath ++ [p])
          (Json.obj (setKey (popKey fs "anyOf") "oneOf" v))
      | none => none
  | _ => none

/-- `AbstractFileBasedSpec.replace_enum_allOf_and_anyOf`.  The Python
function mutates `schema` through aliases and returns it; the embedding
returns the mutated tree, `none` on any raising lookup. -/
def replace_enum_allOf_and_anyOf (schema : Json) : Option Json :=
  (getPath schema formatPath).bind (fun fmt =>
    (rewriteFormat fmt).bind (fun fmt2 =>
      (setPath schema formatPath fmt2).bind (fun s1 =>
        (renameAnyOf s1 "primary_key").bind (fun s2 =>
          renameAnyOf s2 "input_schema"))))

/-- The hand-authored `legacy_format_options` literal of
`add_legacy_format`. -/
def legacy_format_options : Json :=
  .obj [("title", .str "Legacy Format"),
        ("required", .arr [.str "filetype"]),
        ("type", .str "object"),
        ("properties", .obj [("filetype", .obj [("title", .str "Filetype"), ("type", .str "string")])])]

/-- `AbstractFileBasedSpec.add_legacy_format`:

    csv_format_options = schema[...]["format"]
    union_format = \x7b"oneOf": [csv_format_options, legacy_format_options]\x7d
    schema[...]["format"] = union_format
-/
def add_legacy_format (schema : Json) : Option Json :=
  (getPath schema formatPath).bind (fun fmt =>
    setPath schema formatPath (.obj [("oneOf", .arr [fmt, legacy_format_options])]))

/-! ### Success domain of `replace_enum_allOf_and_anyOf`

`wellFormedReplace` states, as one boolean predicate read off the
sequence of lookups the Python function performs, when the function
completes without raising. -/

/-- A field schema on which the inner-loop body does not raise: either
no `allOf` key, or an `allOf` whose value can be indexed at 0. -/
def fieldOk (v : Json) : Bool :=
  match v with
  | .obj fs =>
      match getKey fs "allOf" with
      | none => true
      | some (.arr (_ :: _)) => true
      | some _ => false
  | _ => false

/-- A format alternative on which the outer-loop body does not raise: a
mapping with a mapping-valued `properties` key, all of whose field
schemas are `fieldOk`. -/
def altOk (alt : Json) : Bool :=
  match alt with
  | .obj fs =>
      match getKey fs "properties" with
      | some (.obj pfs) => pfs.all (fun p => fieldOk p.2)
      | _ => false
  | _ => false

/-- The `format` node is one the format-container rewrite accepts. -/
def formatOk (fmt : Json) : Bool :=
  match fmt with
  | .obj fs =>
      match getKey fs "additionalProperties" with
      | none => true
      | some (.obj apFs) =>
          match (getKey apFs "anyOf").getD (Json.arr []) with
          | .arr alts => alts.all altOk
          | _ => false
      | some _ => false
  | _ => false

/-- The stream-level field `p` is a mapping carrying `anyOf` (so the
unconditional `pop("anyOf")` does not raise). -/
def anyOfReady (t : Json) (p : String) : Bool :=
  match getPath t (streamPropsPath ++ [p]) with
  | some (.obj fs) => hasKeyF fs "anyOf"
  | _ => false

/-- Structural precondition of `replace_enum_allOf_and_anyOf`: exactly
the trees on which every lookup the function performs succeeds in this
embedding.  On schema-shaped trees (`shapedReplace` below) this is
exactly the CPython success domain - claim C5; outside that region
CPython's substring, membership and empty-iteration semantics at
non-mapping operands make its raise boundary differ from the
embedding's uniform structural-error reading in both directions. -/
def wellFormedReplace (t : Json) : Bool :=
  (match getPath t formatPath with
   | some fmt => formatOk fmt
   | none => false)
  && anyOfReady t "primary_key" && anyOfReady t "input_schema"

/-! ### Accessors used to state the claims -/

/-- The union list of format alternatives after the rewrite
(`format.additionalProperties.oneOf`). -/
def formatAlts (t : Json) : Option (List Json) :=
  match getPath t (formatPath ++ ["additionalProperties", "oneOf"]) with
  | some (.arr l) => some l
  | _ => none

/-- The union list of format alternatives before the rewrite
(`format.additionalProperties.anyOf`). -/
def formatAnyOfAlts (t : Json) : Option (List Json) :=
  match getPath t (formatPath ++ ["additionalProperties", "anyOf"]) with
  | some (.arr l) => some l
  | _ => none

/-- The schema of field `k` inside a format alternative's `properties`. -/
def altField (alt : Json) (k : String) : Option Json :=
  match alt.lookup "properties" with
  | some props => props.lookup k
  | none => none

/-- A field schema carrying an `allOf` key whose first element carries an
`enum` key - the combination the inner loop rewrites. -/
def enumAllOfHead (v : Json) : Bool :=
  match v.lookup "allOf" with
  | some (.arr (e :: _)) => e.hasKey "enum"
  | _ => false

/-! ### The full pipeline of `AbstractFileBasedSpec.schema` -/

mutual

/-- Number of nodes of a tree (used as expansion fuel). -/
def jsonSize : Json → Nat
  | .arr es => 1 + jsonSizeList es
  | .obj fs => 1 + jsonSizeFields fs
  | _ => 1

/-- Total size of a list of trees. -/
def jsonSizeList : List Json → Nat
  | [] => 0
  | e :: es => jsonSize e + jsonSizeList es

/-- Total size of the values of an association list of trees. -/
def jsonSizeFields : List (String × Json) → Nat
  | [] => 0
  | (_, v) :: fs => jsonSize v + jsonSizeFields fs

end

/-- Recognize a JSON-Schema internal reference string
`"#/definitions/Name"` and extract the definition name. -/
def refTarget (s : String) : Option String :=
  if s.startsWith "#/definitions/" then some (s.drop 14) else none

/-- Modelled from the spec: `expand_refs` (from
`airbyte_cdk.sources.utils.schema_helpers`) is not under `src/`; §4.1
gives only its contract - every internal reference is replaced by the
full sub-schema it points to, recursively, on reference-acyclic input.
We model a fuel-bounded resolver of `"$ref": "#/definitions/Name"`
pointers against a top-level `definitions` table. -/
def expandRefsFuel (defs : List (String × Json)) : Nat → Json → Json
  | 0, j => j
  | fuel + 1, .obj fs =>
      match getKey fs "$ref" with
      | some (.str r) =>
          match refTarget r with
          | some name =>
              match getKey defs name with
              | some d => expandRefsFuel defs fuel d
              | none => .obj fs
          | none => .obj fs
      | _ => .obj (fs.map (fun p => (p.1, expandRefsFuel defs fuel p.2)))
  | fuel + 1, .arr es => .arr (es.map (expandRefsFuel defs fuel))
  | _ + 1, j => j

/-- Modelled from the spec: the Reference Expander pre-pass (§4.1),
applied to the whole tree with its own `definitions` table. -/
def expand_refs (schema : Json) : Json :=
  match schema with
  | .obj fs =>
      match getKey fs "definitions" with
      | some (.obj defs) => expandRefsFuel defs (jsonSize schema) schema
      | _ => expandRefsFuel [] (jsonSize schema) schema
  | j => j

/-- The three transformation stages of `AbstractFileBasedSpec.schema`,
applied in order to one tree (the Python method applies them to a deep
copy of the raw pydantic schema; the deep copy and object identity are
modeled with `AJson` below, where this pure pipeline reappears as the
erasure of the addressed one). -/
def schemaTransform (raw : Json) : Option Json :=
  (replace_enum_allOf_and_anyOf (expand_refs raw)).bind add_legacy_format

/-! ### Concrete fixture trees for counterexamples and witnesses -/

/-- A minimal tree with the fixed topology the transformer navigates:
`properties.streams.items.properties` holding `format`, `primary_key`
and `input_schema`. -/
def mkTree (fmt pk isch : Json) : Json :=
  .obj [("properties", .obj [("streams", .obj [("items",
    .obj [("properties", .obj [("format", fmt), ("primary_key", pk), ("input_schema", isch)])])])])]

/-- A two-alternative `anyOf` union, as pydantic writes for
`primary_key` and `input_schema`. -/
def anyOfNode : Json :=
  .obj [("anyOf", .arr [.obj [("type", .str "string")], .obj [("type", .str "null")]])]

/-- A field schema of the shape named by the spec's enum-hoist example:
an `allOf` wrapping an enum element and a title element. -/
def enumTitleField : Json :=
  .obj [("allOf", .arr [.obj [("enum", .arr [.str "a", .str "b"])], .obj [("title", .str "X")]])]

/-- One format alternative whose single field is `enumTitleField`. -/
def altWithEnumTitle : Json :=
  .obj [("title", .str "Csv"), ("properties", .obj [("f", enumTitleField)])]

/-- Fixture for the enum-hoist claims: a format container whose union
has the one alternative `altWithEnumTitle`. -/
def cexEnumHoist : Json :=
  mkTree (.obj [("additionalProperties", .obj [("anyOf", .arr [altWithEnumTitle])])])
    anyOfNode anyOfNode

/-- The tree `replace_enum_allOf_and_anyOf` produces on `cexEnumHoist`. -/
def cexEnumHoistOut : Json :=
  (replace_enum_allOf_and_anyOf cexEnumHoist).getD .null

/-- The field a run of the transformer leaves at
`format.additionalProperties.oneOf[0].properties.f`. -/
def firstAltField (t : Json) (k : String) : Option Json :=
  (formatAlts t).bind (fun l => (l.get? 0).bind (fun alt => altField alt k))

/-! ### Association-list lemmas -/

theorem getKey_setKey_self {α : Type} (fs : List (String × α)) (k : String) (v : α) :
    getKey (setKey fs k v) k = some v := by
  induction fs with
  | nil => simp [setKey, getKey]
  | cons p rest ih =>
      obtain ⟨k0, v0⟩ := p
      by_cases h : k0 = k
      · simp [setKey, h, getKey]
      · simp [setKey, h, getKey, ih]

theorem getKey_setKey_ne {α : Type} (fs : List (String × α)) (k k' : String) (v : α)
    (h : k' ≠ k) : getKey (setKey fs k v) k' = getKey fs k' := by
  induction fs with
  | nil => simp [setKey, getKey, Ne.symm h]
  | cons p rest ih =>
      obtain ⟨k0, v0⟩ := p
      by_cases h0 : k0 = k
      · subst h0
        simp only [setKey, if_pos rfl, getKey]
        simp [Ne.symm h]
      · simp only [setKey, if_neg h0, getKey]
        by_cases h1 : k0 = k'
        · simp [if_pos h1]
        · simp [if_neg h1, ih]

theorem getKey_popKey_self {α : Type} (fs : List (String × α)) (k : String) :
    getKey (popKey fs k) k = none := by
  induction fs with
  | nil => simp [popKey, getKey]
  | cons p rest ih =>
      obtain ⟨k0, v0⟩ := p
      by_cases h : k0 = k
      · simp [popKey, h, ih]
      · simp [popKey, h, getKey, ih]

theorem getKey_popKey_ne {α : Type} (fs : List (String × α)) (k k' : String)
    (h : k' ≠ k) : getKey (popKey fs k) k' = getKey fs k' := by
  induction fs with
  | nil => simp [popKey]
  | cons p rest ih =>
      obtain ⟨k0, v0⟩ := p
      by_cases h0 : k0 = k
      · subst h0
        simp [popKey, getKey, Ne.symm h, ih]
      · simp only [popKey, if_neg h0, getKey]
        by_cases h1 : k0 = k'
        · simp [if_pos h1]
        · simp [if_neg h1, ih]

theorem popKey_of_getKey_none {α : Type} (fs : List (String × α)) (k : String)
    (h : getKey fs k = none) : popKey fs k = fs := by
  induction fs with
  | nil => simp [popKey]
  | cons p rest ih =>
      obtain ⟨k0, v0⟩ := p
      by_cases h0 : k0 = k
      · simp [getKey, h0] at h
      · simp [getKey, h0] at h
        simp [popKey, h0, ih h]

/-! ### Path lemmas -/

theorem getPath_append (t : Json) (p q : List String) :
    getPath t (p ++ q) = (getPath t p).bind (fun u => getPath u q) := by
  induction p generalizing t with
  | nil => simp [getPath]
  | cons k ks ih =>
      simp only [List.cons_append, getPath]
      cases t.lookup k with
      | none => simp
      | some v => simpa using ih v

theorem setPath_isSome (t : Json) (p : List String) (v : Json) :
    (setPath t p v).isSome = (getPath t p).isSome := by
  induction p generalizing t with
  | nil => simp [setPath, getPath]
  | cons k ks ih =>
      cases t with
      | obj fs =>
          simp only [setPath, getPath, Json.lookup]
          cases getKey fs k with
          | none => simp
          | some w => simpa using ih w
      | null => simp [setPath, getPath, Json.lookup]
      | bool b => simp [setPath, getPath, Json.lookup]
      | num n => simp [setPath, getPath, Json.lookup]
      | str s => simp [setPath, getPath, Json.lookup]
      | arr es => simp [setPath, getPath, Json.lookup]

theorem getPath_setPath_self (p : List String) (t t' v : Json)
    (h : setPath t p v = some t') : getPath t' p = some v := by
  induction p generalizing t t' with
  | nil =>
      simp [setPath] at h
      subst h
      simp [getPath]
  | cons k ks ih =>
      cases t with
      | obj fs =>
          simp only [setPath] at h
          cases hg : getKey fs k with
          | none => simp [hg] at h
          | some w =>
              rw [hg] at h
              simp only [Option.map_eq_some'] at h
              obtain ⟨w2, hw2, ht'⟩ := h
              subst ht'
              simp only [getPath, Json.lookup, getKey_setKey_self]
              exact ih w w2 hw2
      | null => simp [setPath] at h
      | bool b => simp [setPath] at h
      | num n => simp [setPath] at h
      | str s => simp [setPath] at h
      | arr es => simp [setPath] at h

theorem getPath_setPath_last_ne (P : List String) (k k' : String) (t t' v : Json)
    (hne : k' ≠ k) (h : setPath t (P ++ [k]) v = some t') :
    getPath t' (P ++ [k']) = getPath t (P ++ [k']) := by
  induction P generalizing t t' with
  | nil =>
      cases t with
      | obj fs =>
          simp only [List.nil_append, setPath] at h
          cases hg : getKey fs k with
          | none => simp [hg] at h
          | some w =>
              rw [hg] at h
              simp only [setPath, Option.map_some'] at h
              rw [Option.some_inj] at h
              subst h
              simp [getPath, Json.lookup, getKey_setKey_ne fs k k' v hne]
      | null => simp [setPath] at h
      | bool b => simp [setPath] at h
      | num n => simp [setPath] at h
      | str s => simp [setPath] at h
      | arr es => simp [setPath] at h
  | cons q P' ih =>
      cases t with
      | obj fs =>
          simp only [List.cons_append, setPath] at h
          cases hg : getKey fs q with
          | none => simp [hg] at h
          | some w =>
              rw [hg] at h
              simp only [Option.map_eq_some'] at h
              obtain ⟨w2, hw2, ht'⟩ := h
              subst ht'
              simp only [List.cons_append, getPath, Json.lookup, getKey_setKey_self, hg]
              exact ih w w2 hw2
      | null => simp [setPath] at h
      | bool b => simp [setPath] at h
      | num n => simp [setPath] at h
      | str s => simp [setPath] at h
      | arr es => simp [setPath] at h

/-! ### Pointwise lemmas for the loop combinators -/

theorem optionMap_isSome {α β : Type} (f : α → Option β) (l : List α) :
    (optionMap f l).isSome = l.all (fun x => (f x).isSome) := by
  induction l with
  | nil => simp [optionMap]
  | cons x xs ih =>
      simp only [optionMap, List.all_cons]
      cases hx : f x with
      | none => simp
      | some y =>
          cases hxs : optionMap f xs with
          | none => rw [hxs] at ih; simpa using ih.symm
          | some ys => rw [hxs] at ih; simpa using ih.symm

theorem optionMap_get? {α β : Type} (f : α → Option β) (l : List α) (l2 : List β)
    (h : optionMap f l = some l2) (i : Nat) (x : α) (hx : l.get? i = some x) :
    ∃ y, l2.get? i = some y ∧ f x = some y := by
  induction l generalizing l2 i with
  | nil => simp at hx
  | cons a as ih =>
      simp only [optionMap] at h
      cases ha : f a with
      | none => rw [ha] at h; simp at h
      | some b =>
          rw [ha] at h
          cases has : optionMap f as with
          | none => rw [has] at h; simp at h
          | some bs =>
              rw [has] at h
              simp only [Option.some_inj] at h
              subst h
              cases i with
              | zero =>
                  simp only [List.get?] at hx
                  rw [Option.some_inj] at hx
                  subst hx
                  exact ⟨b, rfl, ha⟩
              | succ n =>
                  simp only [List.get?] at hx ⊢
                  exact ih bs has n hx

theorem optionMap_get?_rev {α β : Type} (f : α → Option β) (l : List α) (l2 : List β)
    (h : optionMap f l = some l2) (i : Nat) (y : β) (hy : l2.get? i = some y) :
    ∃ x, l.get? i = some x ∧ f x = some y := by
  induction l generalizing l2 i with
  | nil =>
      simp only [optionMap, Option.some_inj] at h
      subst h
      simp at hy
  | cons a as ih =>
      simp only [optionMap] at h
      cases ha : f a with
      | none => rw [ha] at h; simp at h
      | some b =>
          rw [ha] at h
          cases has : optionMap f as with
          | none => rw [has] at h; simp at h
          | some bs =>
              rw [has] at h
              simp only [Option.some_inj] at h
              subst h
              cases i with
              | zero =>
                  simp only [List.get?] at hy
                  rw [Option.some_inj] at hy
                  subst hy
                  exact ⟨a, rfl, ha⟩
              | succ n =>
                  simp only [List.get?] at hy ⊢
                  exact ih bs has n hy

theorem optionMap_mem_rev {α β : Type} (f : α → Option β) (l : List α) (l2 : List β)
    (h : optionMap f l = some l2) (y : β) (hy : y ∈ l2) :
    ∃ x, x ∈ l ∧ f x = some y := by
  obtain ⟨i, hi⟩ := List.get?_of_mem hy
  obtain ⟨x, hx, hfx⟩ := optionMap_get?_rev f l l2 h i y hi
  exact ⟨x, List.get?_mem hx, hfx⟩

theorem mapValues_isSome {α β : Type} (f : α → Option β) (fs : List (String × α)) :
    (mapValues f fs).isSome = fs.all (fun p => (f p.2).isSome) := by
  induction fs with
  | nil => simp [mapValues]
  | cons p rest ih =>
      obtain ⟨k, v⟩ := p
      simp only [mapValues, List.all_cons]
      cases hv : f v with
      | none => simp
      | some v2 =>
          cases hr : mapValues f rest with
          | none => rw [hr] at ih; simpa using ih.symm
          | some rest2 => rw [hr] at ih; simpa using ih.symm

theorem mapValues_getKey {α β : Type} (f : α → Option β) (fs : List (String × α))
    (fs2 : List (String × β)) (h : mapValues f fs = some fs2) (k : String) (v : α)
    (hv : getKey fs k = some v) : ∃ v2, getKey fs2 k = some v2 ∧ f v = some v2 := by
  induction fs generalizing fs2 with
  | nil => simp [getKey] at hv
  | cons p rest ih =>
      obtain ⟨k0, v0⟩ := p
      simp only [mapValues] at h
      cases hv0 : f v0 with
      | none => rw [hv0] at h; simp at h
      | some w0 =>
          rw [hv0] at h
          cases hr : mapValues f rest with
          | none => rw [hr] at h; simp at h
          | some rest2 =>
              rw [hr] at h
              simp only [Option.some_inj] at h
              subst h
              by_cases hk : k0 = k
              · subst hk
                simp only [getKey] at hv
                rw [if_pos trivial, Option.some_inj] at hv
                subst hv
                exact ⟨w0, by simp [getKey], hv0⟩
              · simp only [getKey, if_neg hk] at hv
                obtain ⟨v2, hv2, hfv⟩ := ih rest2 hr hv
                exact ⟨v2, by simpa [getKey, if_neg hk] using hv2, hfv⟩

theorem mapValues_getKey_rev {α β : Type} (f : α → Option β) (fs : List (String × α))
    (fs2 : List (String × β)) (h : mapValues f fs = some fs2) (k : String) (v2 : β)
    (hv2 : getKey fs2 k = some v2) : ∃ v, getKey fs k = some v ∧ f v = some v2 := by
  induction fs generalizing fs2 with
  | nil =>
      simp only [mapValues, Option.some_inj] at h
      subst h
      simp [getKey] at hv2
  | cons p rest ih =>
      obtain ⟨k0, v0⟩ := p
      simp only [mapValues] at h
      cases hv0 : f v0 with
      | none => rw [hv0] at h; simp at h
      | some w0 =>
          rw [hv0] at h
          cases hr : mapValues f rest with
          | none => rw [hr] at h; simp at h
          | some rest2 =>
              rw [hr] at h
              simp only [Option.some_inj] at h
              subst h
              by_cases hk : k0 = k
              · subst hk
                simp only [getKey] at hv2
                rw [if_pos trivial, Option.some_inj] at hv2
                subst hv2
                exact ⟨v0, by simp [getKey], hv0⟩
              · simp only [getKey, if_neg hk] at hv2
                obtain ⟨v, hv, hfv⟩ := ih rest2 hr hv2
                exact ⟨v, by simpa [getKey, if_neg hk] using hv, hfv⟩

/-! ### Lemmas about the inner enum-hoist step -/

theorem formatPath_eq : formatPath = streamPropsPath ++ ["format"] := rfl

theorem transformProperty_isSome (v : Json) :
    (transformProperty v).isSome = fieldOk v := by
  cases v with
  | obj fs =>
      simp only [transformProperty, fieldOk]
      cases hg : getKey fs "allOf" with
      | none => rfl
      | some w =>
          cases w with
          | arr l =>
              cases l with
              | nil => rfl
              | cons first rest => cases he : first.lookup "enum" <;> simp [he]
          | null => rfl
          | bool b => rfl
          | num n => rfl
          | str s => rfl
          | obj gs => rfl
  | null => rfl
  | bool b => rfl
  | num n => rfl
  | str s => rfl
  | arr es => rfl

theorem transformProperty_keep (fs : List (String × Json)) (e : Json) (rest : List Json)
    (h1 : getKey fs "allOf" = some (.arr (e :: rest))) (h2 : e.lookup "enum" = none) :
    transformProperty (.obj fs) = some (.obj fs) := by
  simp [transformProperty, h1, h2]

theorem transformProperty_hoist (fs : List (String × Json)) (e : Json) (rest : List Json)
    (ev : Json) (h1 : getKey fs "allOf" = some (.arr (e :: rest)))
    (h2 : e.lookup "enum" = some ev) :
    transformProperty (.obj fs) = some (.obj (popKey (setKey fs "enum" ev) "allOf")) := by
  simp [transformProperty, h1, h2]

theorem transformProperty_noAllOf (fs : List (String × Json))
    (h : getKey fs "allOf" = none) : transformProperty (.obj fs) = some (.obj fs) := by
  simp [transformProperty, h]

theorem transformProperty_not_enumAllOfHead (v v2 : Json)
    (h : transformProperty v = some v2) : enumAllOfHead v2 = false := by
  cases v with
  | obj fs =>
      cases hg : getKey fs "allOf" with
      | none =>
          rw [transformProperty_noAllOf fs hg, Option.some_inj] at h
          subst h
          simp [enumAllOfHead, Json.lookup, hg]
      | some w =>
          cases w with
          | arr l =>
              cases l with
              | nil => simp [transformProperty, hg] at h
              | cons first rest =>
                  cases he : first.lookup "enum" with
                  | none =>
                      rw [transformProperty_keep fs first rest hg he, Option.some_inj] at h
                      subst h
                      have hg2 : Json.lookup (Json.obj fs) "allOf" = some (Json.arr (first :: rest)) := hg
                      simp only [enumAllOfHead, hg2]
                      simp [Json.hasKey, he]
                  | some ev =>
                      rw [transformProperty_hoist fs first rest ev hg he, Option.some_inj] at h
                      subst h
                      simp [enumAllOfHead, Json.lookup, getKey_popKey_self]
          | null => simp [transformProperty, hg] at h
          | bool b => simp [transformProperty, hg] at h
          | num n => simp [transformProperty, hg] at h
          | str s => simp [transformProperty, hg] at h
          | obj gs => simp [transformProperty, hg] at h
  | null => simp [transformProperty] at h
  | bool b => simp [transformProperty] at h
  | num n => simp [transformProperty] at h
  | str s => simp [transformProperty] at h
  | arr es => simp [transformProperty] at h

theorem transformProperty_enum_out (v v2 e : Json) (rest : List Json) (ev : Json)
    (h : transformProperty v = some v2) (ha : v.lookup "allOf" = some (.arr (e :: rest)))
    (he : e.lookup "enum" = some ev) :
    v2.lookup "enum" = some ev ∧ v2.hasKey "allOf" = false := by
  cases v with
  | obj fs =>
      simp only [Json.lookup] at ha
      rw [transformProperty_hoist fs e rest ev ha he] at h
      rw [Option.some_inj] at h
      subst h
      constructor
      · have hne : ("enum" : String) ≠ "allOf" := by decide
        simp [Json.lookup, getKey_popKey_ne _ _ _ hne, getKey_setKey_self]
      · simp [Json.hasKey, Json.lookup, getKey_popKey_self]
  | null => simp [Json.lookup] at ha
  | bool b => simp [Json.lookup] at ha
  | num n => simp [Json.lookup] at ha
  | str s => simp [Json.lookup] at ha
  | arr es => simp [Json.lookup] at ha

/-! ### Lemmas about one format alternative -/

theorem transformAlternative_elim (alt alt2 : Json)
    (h : transformAlternative alt = some alt2) :
    ∃ fs pfs pfs2, alt = Json.obj fs ∧ getKey fs "properties" = some (.obj pfs) ∧
      mapValues transformProperty pfs = some pfs2 ∧
      alt2 = Json.obj (setKey fs "properties" (.obj pfs2)) := by
  cases alt with
  | obj fs =>
      simp only [transformAlternative] at h
      cases hp : getKey fs "properties" with
      | none => rw [hp] at h; simp at h
      | some w =>
          rw [hp] at h
          cases w with
          | obj pfs =>
              rw [Option.map_eq_some'] at h
              obtain ⟨pfs2, hm, halt2⟩ := h
              exact ⟨fs, pfs, pfs2, rfl, hp, hm, halt2.symm⟩
          | null => simp at h
          | bool b => simp at h
          | num n => simp at h
          | str s => simp at h
          | arr es => simp at h
  | null => simp [transformAlternative] at h
  | bool b => simp [transformAlternative] at h
  | num n => simp [transformAlternative] at h
  | str s => simp [transformAlternative] at h
  | arr es => simp [transformAlternative] at h

theorem transformAlternative_field_rev (alt alt2 : Json) (k : String) (v2 : Json)
    (h : transformAlternative alt = some alt2) (hv2 : altField alt2 k = some v2) :
    ∃ v, altField alt k = some v ∧ transformProperty v = some v2 := by
  obtain ⟨fs, pfs, pfs2, halt, hp, hm, halt2⟩ := transformAlternative_elim alt alt2 h
  subst halt
  subst halt2
  simp only [altField, Json.lookup, getKey_setKey_self] at hv2
  obtain ⟨v, hv, htp⟩ := mapValues_getKey_rev transformProperty pfs pfs2 hm k v2 hv2
  exact ⟨v, by simp [altField, Json.lookup, hp, hv], htp⟩

theorem transformAlternative_field_fwd (alt alt2 : Json) (k : String) (v : Json)
    (h : transformAlternative alt = some alt2) (hv : altField alt k = some v) :
    ∃ v2, altField alt2 k = some v2 ∧ transformProperty v = some v2 := by
  obtain ⟨fs, pfs, pfs2, halt, hp, hm, halt2⟩ := transformAlternative_elim alt alt2 h
  subst halt
  subst halt2
  simp only [altField, Json.lookup, hp] at hv
  obtain ⟨v2, hv2, htp⟩ := mapValues_getKey transformProperty pfs pfs2 hm k v hv
  exact ⟨v2, by simp [altField, Json.lookup, getKey_setKey_self, hv2], htp⟩

theorem transformAlternative_isSome (alt : Json) :
    (transformAlternative alt).isSome = altOk alt := by
  cases alt with
  | obj fs =>
      simp only [transformAlternative, altOk]
      cases hp : getKey fs "properties" with
      | none => rfl
      | some w =>
          cases w with
          | obj pfs =>
              simp only [Option.isSome_map', mapValues_isSome, transformProperty_isSome]
          | null => rfl
          | bool b => rfl
          | num n => rfl
          | str s => rfl
          | arr es => rfl
  | null => rfl
  | bool b => rfl
  | num n => rfl
  | str s => rfl
  | arr es => rfl

/-! ### Lemmas about the format-container rewrite -/

theorem rewriteFormat_noAP (fs : List (String × Json))
    (h : getKey fs "additionalProperties" = none) :
    rewriteFormat (.obj fs) = some (.obj fs) := by
  simp [rewriteFormat, h]

theorem rewriteFormat_someAnyOf (fs apFs : List (String × Json)) (alts : List Json)
    (fmt2 : Json) (h : rewriteFormat (.obj fs) = some fmt2)
    (hap : getKey fs "additionalProperties" = some (.obj apFs))
    (ha : getKey apFs "anyOf" = some (.arr alts)) :
    ∃ alts2, optionMap transformAlternative alts = some alts2 ∧
      fmt2 = Json.obj (setKey fs "additionalProperties"
        (.obj (setKey (popKey apFs "anyOf") "oneOf" (.arr alts2)))) := by
  simp only [rewriteFormat, hap, ha, Option.getD_some] at h
  rw [Option.map_eq_some'] at h
  obtain ⟨alts2, hm, hfmt2⟩ := h
  exact ⟨alts2, hm, hfmt2.symm⟩

theorem rewriteFormat_noAnyOf (fs apFs : List (String × Json))
    (hap : getKey fs "additionalProperties" = some (.obj apFs))
    (ha : getKey apFs "anyOf" = none) :
    rewriteFormat (.obj fs) = some (.obj (setKey fs "additionalProperties"
      (.obj (setKey apFs "oneOf" (.arr []))))) := by
  simp [rewriteFormat, hap, ha, optionMap, popKey_of_getKey_none apFs "anyOf" ha]

theorem rewriteFormat_isSome (fmt : Json) :
    (rewriteFormat fmt).isSome = formatOk fmt := by
  cases fmt with
  | obj fs =>
      simp only [rewriteFormat, formatOk]
      cases hap : getKey fs "additionalProperties" with
      | none => rfl
      | some w =>
          cases w with
          | obj apFs =>
              dsimp only
              cases ha : (getKey apFs "anyOf").getD (Json.arr []) with
              | arr alts =>
                  simp only [Option.isSome_map', optionMap_isSome, transformAlternative_isSome]
              | null => rfl
              | bool b => rfl
              | num n => rfl
              | str s => rfl
              | obj gs => rfl
          | null => rfl
          | bool b => rfl
          | num n => rfl
          | str s => rfl
          | arr es => rfl
  | null => rfl
  | bool b => rfl
  | num n => rfl
  | str s => rfl
  | arr es => rfl

/-! ### Lemmas about the anyOf-to-oneOf rename -/

theorem renameAnyOf_elim (t t' : Json) (p : String) (h : renameAnyOf t p = some t') :
    ∃ fs v, getPath t (streamPropsPath ++ [p]) = some (.obj fs) ∧
      getKey fs "anyOf" = some v ∧
      setPath t (streamPropsPath ++ [p])
        (.obj (setKey (popKey fs "anyOf") "oneOf" v)) = some t' := by
  simp only [renameAnyOf] at h
  cases hg : getPath t (streamPropsPath ++ [p]) with
  | none => rw [hg] at h; simp at h
  | some w =>
      rw [hg] at h
      cases w with
      | obj fs =>
          dsimp only at h
          cases ha : getKey fs "anyOf" with
          | none => rw [ha] at h; simp at h
          | some v =>
              rw [ha] at h
              exact ⟨fs, v, rfl, ha, h⟩
      | null => simp at h
      | bool b => simp at h
      | num n => simp at h
      | str s => simp at h
      | arr es => simp at h

theorem renameAnyOf_isSome (t : Json) (p : String) :
    (renameAnyOf t p).isSome = anyOfReady t p := by
  simp only [renameAnyOf, anyOfReady]
  cases hg : getPath t (streamPropsPath ++ [p]) with
  | none => rfl
  | some w =>
      cases w with
      | obj fs =>
          cases ha : getKey fs "anyOf" with
          | none => simp [hasKeyF, ha]
          | some v =>
              simp only [hasKeyF, ha, Option.isSome_some]
              rw [setPath_isSome, hg]
              rfl
      | null => rfl
      | bool b => rfl
      | num n => rfl
      | str s => rfl
      | arr es => rfl

theorem renameAnyOf_get_other (t t' : Json) (p k : String)
    (h : renameAnyOf t p = some t') (hk : k ≠ p) :
    getPath t' (streamPropsPath ++ [k]) = getPath t (streamPropsPath ++ [k]) := by
  obtain ⟨fs, v, _, _, hset⟩ := renameAnyOf_elim t t' p h
  exact getPath_setPath_last_ne streamPropsPath p k t t' _ hk hset

theorem renameAnyOf_out (t t' : Json) (p : String) (h : renameAnyOf t p = some t') :
    ∃ fs v, getPath t (streamPropsPath ++ [p]) = some (.obj fs) ∧
      getKey fs "anyOf" = some v ∧
      getPath t' (streamPropsPath ++ [p]) =
        some (.obj (setKey (popKey fs "anyOf") "oneOf" v)) := by
  obtain ⟨fs, v, hg, ha, hset⟩ := renameAnyOf_elim t t' p h
  exact ⟨fs, v, hg, ha, getPath_setPath_self _ t t' _ hset⟩

/-! ### Lemmas about the whole of replace_enum_allOf_and_anyOf -/

theorem replace_enum_elim (t t' : Json) (h : replace_enum_allOf_and_anyOf t = some t') :
    ∃ fmt fmt2 s1 s2, getPath t formatPath = some fmt ∧ rewriteFormat fmt = some fmt2 ∧
      setPath t formatPath fmt2 = some s1 ∧ renameAnyOf s1 "primary_key" = some s2 ∧
      renameAnyOf s2 "input_schema" = some t' := by
  simp only [replace_enum_allOf_and_anyOf, Option.bind_eq_some] at h
  obtain ⟨fmt, h1, fmt2, h2, s1, h3, s2, h4, h5⟩ := h
  exact ⟨fmt, fmt2, s1, s2, h1, h2, h3, h4, h5⟩

theorem anyOfReady_setPath_format (t t2 v : Json) (p : String)
    (h : setPath t formatPath v = some t2) (hp : p ≠ "format") :
    anyOfReady t2 p = anyOfReady t p := by
  simp only [anyOfReady]
  rw [formatPath_eq] at h
  rw [getPath_setPath_last_ne streamPropsPath "format" p t t2 v hp h]

theorem anyOfReady_rename_other (t t2 : Json) (p0 p : String)
    (h : renameAnyOf t p0 = some t2) (hp : p ≠ p0) :
    anyOfReady t2 p = anyOfReady t p := by
  simp only [anyOfReady]
  rw [renameAnyOf_get_other t t2 p0 p h hp]

theorem replace_enum_format_out (t t' : Json)
    (h : replace_enum_allOf_and_anyOf t = some t') :
    ∃ fmt fmt2, getPath t formatPath = some fmt ∧ rewriteFormat fmt = some fmt2 ∧
      getPath t' formatPath = some fmt2 := by
  obtain ⟨fmt, fmt2, s1, s2, h1, h2, h3, h4, h5⟩ := replace_enum_elim t t' h
  refine ⟨fmt, fmt2, h1, h2, ?_⟩
  have g1 : getPath s1 formatPath = some fmt2 := getPath_setPath_self formatPath t s1 fmt2 h3
  have g2 : getPath s2 formatPath = getPath s1 formatPath := by
    rw [formatPath_eq]
    exact renameAnyOf_get_other s1 s2 "primary_key" "format" h4 (by decide)
  have g3 : getPath t' formatPath = getPath s2 formatPath := by
    rw [formatPath_eq]
    exact renameAnyOf_get_other s2 t' "input_schema" "format" h5 (by decide)
  rw [g3, g2, g1]

theorem replace_enum_isSome (t : Json) :
    (replace_enum_allOf_and_anyOf t).isSome = wellFormedReplace t := by
  simp only [replace_enum_allOf_and_anyOf, wellFormedReplace]
  cases h1 : getPath t formatPath with
  | none => simp
  | some fmt =>
      simp only [Option.some_bind]
      cases h2 : rewriteFormat fmt with
      | none =>
          have hko : formatOk fmt = false := by rw [← rewriteFormat_isSome, h2]; rfl
          simp [hko]
      | some fmt2 =>
          have hok : formatOk fmt = true := by rw [← rewriteFormat_isSome, h2]; rfl
          have hs : (setPath t formatPath fmt2).isSome = true := by
            rw [setPath_isSome, h1]; rfl
          obtain ⟨s1, hs1⟩ := Option.isSome_iff_exists.mp hs
          simp only [Option.some_bind]
          rw [hs1]
          simp only [Option.some_bind]
          have hpk : anyOfReady s1 "primary_key" = anyOfReady t "primary_key" :=
            anyOfReady_setPath_format t s1 fmt2 "primary_key" hs1 (by decide)
          have his : anyOfReady s1 "input_schema" = anyOfReady t "input_schema" :=
            anyOfReady_setPath_format t s1 fmt2 "input_schema" hs1 (by decide)
          cases h4 : renameAnyOf s1 "primary_key" with
          | none =>
              have hno : anyOfReady t "primary_key" = false := by
                rw [← hpk, ← renameAnyOf_isSome, h4]; rfl
              simp [hno, hok]
          | some s2 =>
              have hpk2 : anyOfReady t "primary_key" = true := by
                rw [← hpk, ← renameAnyOf_isSome, h4]; rfl
              have his2 : anyOfReady s2 "input_schema" = anyOfReady t "input_schema" := by
                rw [← his]
                exact anyOfReady_rename_other s1 s2 "primary_key" "input_schema" h4 (by decide)
              simp only [Option.some_bind]
              rw [renameAnyOf_isSome, his2, hok, hpk2]
              simp

theorem replace_enum_alts (t t' : Json) (alts : List Json)
    (h : replace_enum_allOf_and_anyOf t = some t')
    (ha : formatAnyOfAlts t = some alts) :
    ∃ alts2, optionMap transformAlternative alts = some alts2 ∧
      formatAlts t' = some alts2 := by
  obtain ⟨fmt, fmt2, h1, h2, h3⟩ := replace_enum_format_out t t' h
  simp only [formatAnyOfAlts, getPath_append, h1, Option.some_bind] at ha
  cases fmt with
  | obj fs =>
      cases hap : getKey fs "additionalProperties" with
      | none => simp [getPath, Json.lookup, hap] at ha
      | some w =>
          cases w with
          | obj apFs =>
              cases han : getKey apFs "anyOf" with
              | none => simp [getPath, Json.lookup, hap, han] at ha
              | some u =>
                  cases u with
                  | arr l =>
                      simp only [getPath, Json.lookup, hap, han] at ha
                      rw [Option.some_inj] at ha
                      subst ha
                      obtain ⟨alts2, hm, hfmt2⟩ :=
                        rewriteFormat_someAnyOf fs apFs l fmt2 h2 hap han
                      refine ⟨alts2, hm, ?_⟩
                      subst hfmt2
                      simp only [formatAlts, getPath_append, h3, Option.some_bind]
                      simp [getPath, Json.lookup, getKey_setKey_self]
                  | null => simp [getPath, Json.lookup, hap, han] at ha
                  | bool b => simp [getPath, Json.lookup, hap, han] at ha
                  | num n => simp [getPath, Json.lookup, hap, han] at ha
                  | str s => simp [getPath, Json.lookup, hap, han] at ha
                  | obj gs => simp [getPath, Json.lookup, hap, han] at ha
          | null => simp [getPath, Json.lookup, hap] at ha
          | bool b => simp [getPath, Json.lookup, hap] at ha
          | num n => simp [getPath, Json.lookup, hap] at ha
          | str s => simp [getPath, Json.lookup, hap] at ha
          | arr es => simp [getPath, Json.lookup, hap] at ha
  | null => simp [getPath, Json.lookup] at ha
  | bool b => simp [getPath, Json.lookup] at ha
  | num n => simp [getPath, Json.lookup] at ha
  | str s => simp [getPath, Json.lookup] at ha
  | arr es => simp [getPath, Json.lookup] at ha

theorem replace_enum_alts_rev (t t' : Json) (alts2 : List Json)
    (h : replace_enum_allOf_and_anyOf t = some t')
    (ha2 : formatAlts t' = some alts2) :
    alts2 = [] ∨ ∃ alts, formatAnyOfAlts t = some alts ∧
      optionMap transformAlternative alts = some alts2 := by
  obtain ⟨fmt, fmt2, h1, h2, h3⟩ := replace_enum_format_out t t' h
  simp only [formatAlts, getPath_append, h3, Option.some_bind] at ha2
  cases fmt with
  | obj fs =>
      cases hap : getKey fs "additionalProperties" with
      | none =>
          rw [rewriteFormat_noAP fs hap, Option.some_inj] at h2
          subst h2
          simp [getPath, Json.lookup, hap] at ha2
      | some w =>
          cases w with
          | obj apFs =>
              cases han : getKey apFs "anyOf" with
              | none =>
                  rw [rewriteFormat_noAnyOf fs apFs hap han, Option.some_inj] at h2
                  subst h2
                  simp only [getPath, Json.lookup, getKey_setKey_self] at ha2
                  rw [Option.some_inj] at ha2
                  left
                  exact ha2.symm
              | some u =>
                  cases u with
                  | arr l =>
                      obtain ⟨alts0, hm, hfmt2⟩ :=
                        rewriteFormat_someAnyOf fs apFs l fmt2 h2 hap han
                      subst hfmt2
                      simp only [getPath, Json.lookup, getKey_setKey_self] at ha2
                      rw [Option.some_inj] at ha2
                      subst ha2
                      right
                      refine ⟨l, ?_, hm⟩
                      simp only [formatAnyOfAlts, getPath_append, h1, Option.some_bind]
                      simp [getPath, Json.lookup, hap, han]
                  | null => simp [rewriteFormat, hap, han] at h2
                  | bool b => simp [rewriteFormat, hap, han] at h2
                  | num n => simp [rewriteFormat, hap, han] at h2
                  | str s => simp [rewriteFormat, hap, han] at h2
                  | obj gs => simp [rewriteFormat, hap, han] at h2
          | null => simp [rewriteFormat, hap] at h2
          | bool b => simp [rewriteFormat, hap] at h2
          | num n => simp [rewriteFormat, hap] at h2
          | str s => simp [rewriteFormat, hap] at h2
          | arr es => simp [rewriteFormat, hap] at h2
  | null => simp [rewriteFormat] at h2
  | bool b => simp [rewriteFormat] at h2
  | num n => simp [rewriteFormat] at h2
  | str s => simp [rewriteFormat] at h2
  | arr es => simp [rewriteFormat] at h2

/-! ### Lemma about add_legacy_format -/

theorem add_legacy_out (t fmt : Json) (h : getPath t formatPath = some fmt) :
    ∃ t2, add_legacy_format t = some t2 ∧
      getPath t2 formatPath = some (.obj [("oneOf", .arr [fmt, legacy_format_options])]) := by
  have hs : (setPath t formatPath
      (.obj [("oneOf", .arr [fmt, legacy_format_options])])).isSome = true := by
    rw [setPath_isSome, h]
    rfl
  obtain ⟨t2, ht2⟩ := Option.isSome_iff_exists.mp hs
  refine ⟨t2, ?_, getPath_setPath_self formatPath t t2 _ ht2⟩
  simp only [add_legacy_format, h, Option.some_bind]
  exact ht2

/-! ### Further fixture trees -/

/-- A field schema whose `allOf` first element has no `enum` key. -/
def allOfNoEnumField : Json := .obj [("allOf", .arr [.obj [("title", .str "X")]])]

/-- A format alternative whose single field is `allOfNoEnumField`. -/
def altWithPlainAllOf : Json := .obj [("properties", .obj [("g", allOfNoEnumField)])]

/-- Fixture: a format union whose one alternative keeps its `allOf`. -/
def cexAllOfKept : Json :=
  mkTree (.obj [("additionalProperties", .obj [("anyOf", .arr [altWithPlainAllOf])])])
    anyOfNode anyOfNode

/-- Output of the transformer on `cexAllOfKept`. -/
def cexAllOfKeptOut : Json := (replace_enum_allOf_and_anyOf cexAllOfKept).getD .null

/-- The single output alternative of `cexAllOfKeptOut`. -/
def cexAllOfKeptOutAlt : Json := ((formatAlts cexAllOfKeptOut).getD []).headD .null

/-- The single output alternative of `cexEnumHoistOut`. -/
def cexEnumHoistOutAlt : Json := ((formatAlts cexEnumHoistOut).getD []).headD .null

/-- A format node that itself declares `filetype` as required. -/
def cexRequiredFmt : Json := .obj [("required", .arr [.str "filetype"])]

/-- Fixture: tree whose format node is `cexRequiredFmt` (no
`additionalProperties`, so stage 2 leaves it alone). -/
def cexRequired : Json := mkTree cexRequiredFmt anyOfNode anyOfNode

/-- Stage-2 output on `cexRequired`. -/
def cexRequiredStage2 : Json := (replace_enum_allOf_and_anyOf cexRequired).getD .null

/-- Stage-3 output on `cexRequired`. -/
def cexRequiredOut : Json := (add_legacy_format cexRequiredStage2).getD .null

/-- Fixture: a format alternative that is a mapping without a
`properties` key (the loop body raises on it). -/
def cexMissingProps : Json :=
  mkTree (.obj [("additionalProperties",
      .obj [("anyOf", .arr [.obj [("title", .str "Csv")]])])])
    anyOfNode anyOfNode

/-- Fixture: `additionalProperties` present without `anyOf`, and
`primary_key` and `input_schema` both missing `anyOf`. -/
def cexPkBroken : Json :=
  mkTree (.obj [("additionalProperties", .obj [("title", .str "Formats")])])
    (.obj []) (.obj [])

/-- Fixture: `additionalProperties` present without `anyOf`, with intact
`primary_key` and `input_schema`. -/
def fixNoAnyOf : Json :=
  mkTree (.obj [("additionalProperties", .obj [("title", .str "Formats")])])
    anyOfNode anyOfNode

/-! ### Claim C1 -/

/-- Claim C1 (counterexample): the spec asserts that a field schema equal
to an `allOf` of an enum element and a title element is rewritten to a
schema equal (up to key order) to the title plus the hoisted enum.  On
the code the title inside the `allOf` wrapper is discarded: the output
field is exactly the hoisted enum with no `title` key at all. -/
theorem claim_C1_counterexample :
    replace_enum_allOf_and_anyOf cexEnumHoist = some cexEnumHoistOut ∧
    firstAltField cexEnumHoistOut "f" =
      some (.obj [("enum", .arr [.str "a", .str "b"])]) ∧
    (firstAltField cexEnumHoistOut "f").bind (fun v => v.lookup "title") = none :=
  ⟨rfl, rfl, rfl⟩

/-- Claim C1 (amended): for every field schema inside a format
alternative's properties equal to an `allOf` of an enum element and a
title element, the field schema after `replace_enum_allOf_and_anyOf`
equals exactly the hoisted enum object: the `allOf` key is gone and the
title (like every other key of the `allOf` wrapper) is discarded. -/
theorem claim_C1_amended (t t' : Json) (alts : List Json) (i : Nat) (alt : Json)
    (k : String) (E X : Json)
    (h : replace_enum_allOf_and_anyOf t = some t')
    (ha : formatAnyOfAlts t = some alts)
    (hi : alts.get? i = some alt)
    (hf : altField alt k =
      some (.obj [("allOf", .arr [.obj [("enum", E)], .obj [("title", X)]])])) :
    ∃ alts2 alt2, formatAlts t' = some alts2 ∧ alts2.get? i = some alt2 ∧
      altField alt2 k = some (.obj [("enum", E)]) := by
  obtain ⟨alts2, hm, ha2⟩ := replace_enum_alts t t' alts h ha
  obtain ⟨alt2, hi2, hta⟩ := optionMap_get? transformAlternative alts alts2 hm i alt hi
  obtain ⟨v2, hv2, htp⟩ := transformAlternative_field_fwd alt alt2 k _ hta hf
  refine ⟨alts2, alt2, ha2, hi2, ?_⟩
  rw [transformProperty_hoist
        [("allOf", .arr [.obj [("enum", E)], .obj [("title", X)]])]
        (.obj [("enum", E)]) [.obj [("title", X)]] E
        (by simp [getKey]) (by simp [Json.lookup, getKey])] at htp
  rw [Option.some_inj] at htp
  subst htp
  have hcomp :
      popKey (setKey [("allOf", Json.arr [Json.obj [("enum", E)], Json.obj [("title", X)]])]
        "enum" E) "allOf" = [("enum", E)] := by
    simp [setKey, popKey]
  rw [hcomp] at hv2
  exact hv2

/-- Witness for claim C1 amended at the fixture tree. -/
theorem claim_C1_amended_witness :
    ∃ alts2 alt2, formatAlts cexEnumHoistOut = some alts2 ∧ alts2.get? 0 = some alt2 ∧
      altField alt2 "f" = some (.obj [("enum", .arr [.str "a", .str "b"])]) :=
  claim_C1_amended cexEnumHoist cexEnumHoistOut [altWithEnumTitle] 0 altWithEnumTitle
    "f" (.arr [.str "a", .str "b"]) (.str "X") rfl rfl rfl rfl

/-! ### Claim C2 -/

/-- Claim C2 (counterexample): the spec asserts that after stage 2 no
field under any format alternative carries `allOf`.  On the code a field
whose `allOf` first element has no `enum` key keeps its `allOf`: after a
successful run the field `g` still carries `allOf`. -/
theorem claim_C2_counterexample :
    replace_enum_allOf_and_anyOf cexAllOfKept = some cexAllOfKeptOut ∧
    firstAltField cexAllOfKeptOut "g" = some allOfNoEnumField ∧
    allOfNoEnumField.hasKey "allOf" = true :=
  ⟨rfl, rfl, rfl⟩

/-- Claim C2 (amended): after `replace_enum_allOf_and_anyOf` runs, no
field of any format alternative under the union carries an `allOf` key
whose first element carries an `enum` key; and every field that carried
such an enum-bearing `allOf` now carries a direct `enum` key (the enum
of the `allOf` first element) with the `allOf` key and the rest of the
wrapper discarded. -/
theorem claim_C2_amended (t t' : Json) (h : replace_enum_allOf_and_anyOf t = some t') :
    (∀ alts2, formatAlts t' = some alts2 → ∀ alt2 ∈ alts2, ∀ k v2,
        altField alt2 k = some v2 → enumAllOfHead v2 = false) ∧
    (∀ alts alts2 i alt alt2 k v e rest ev,
        formatAnyOfAlts t = some alts → formatAlts t' = some alts2 →
        alts.get? i = some alt → alts2.get? i = some alt2 →
        altField alt k = some v → v.lookup "allOf" = some (.arr (e :: rest)) →
        e.lookup "enum" = some ev →
        ∃ v2, altField alt2 k = some v2 ∧ v2.lookup "enum" = some ev ∧
          v2.hasKey "allOf" = false) := by
  constructor
  · intro alts2 ha2 alt2 hmem k v2 hv2
    rcases replace_enum_alts_rev t t' alts2 h ha2 with hnil | ⟨alts, ha, hm⟩
    · subst hnil
      simp at hmem
    · obtain ⟨alt, hmem1, hta⟩ := optionMap_mem_rev transformAlternative alts alts2 hm alt2 hmem
      obtain ⟨v, hv, htp⟩ := transformAlternative_field_rev alt alt2 k v2 hta hv2
      exact transformProperty_not_enumAllOfHead v v2 htp
  · intro alts alts2 i alt alt2 k v e rest ev ha ha2 hi hi2 hv hall henum
    obtain ⟨alts2b, hm, ha2b⟩ := replace_enum_alts t t' alts h ha
    rw [ha2b, Option.some_inj] at ha2
    subst ha2
    obtain ⟨alt2b, hi2b, hta⟩ := optionMap_get? transformAlternative alts alts2b hm i alt hi
    rw [hi2b, Option.some_inj] at hi2
    subst hi2
    obtain ⟨v2, hv2, htp⟩ := transformAlternative_field_fwd alt alt2b k v hta hv
    obtain ⟨he1, he2⟩ := transformProperty_enum_out v v2 e rest ev htp hall henum
    exact ⟨v2, hv2, he1, he2⟩

/-- Witness for claim C2 amended at the fixture tree. -/
theorem claim_C2_amended_witness :
    ∃ v2, altField cexEnumHoistOutAlt "f" = some v2 ∧
      v2.lookup "enum" = some (.arr [.str "a", .str "b"]) ∧
      v2.hasKey "allOf" = false :=
  (claim_C2_amended cexEnumHoist cexEnumHoistOut rfl).2
    [altWithEnumTitle] [cexEnumHoistOutAlt] 0 altWithEnumTitle cexEnumHoistOutAlt "f"
    enumTitleField (.obj [("enum", .arr [.str "a", .str "b"])]) [.obj [("title", .str "X")]]
    (.arr [.str "a", .str "b"]) rfl rfl rfl rfl rfl rfl rfl

/-! ### Claim C3 -/

/-- Claim C3 (counterexample): the spec asserts that the first `oneOf`
member never declares `filetype` as required.  `add_legacy_format` wraps
the prior format schema verbatim, so a post-stage-2 format schema that
already declares `required: [filetype]` appears unchanged as the first
member and does declare `filetype` as required. -/
theorem claim_C3_counterexample :
    replace_enum_allOf_and_anyOf cexRequired = some cexRequiredStage2 ∧
    add_legacy_format cexRequiredStage2 = some cexRequiredOut ∧
    getPath cexRequiredOut formatPath =
      some (.obj [("oneOf", .arr [cexRequiredFmt, legacy_format_options])]) ∧
    cexRequiredFmt.lookup "required" = some (.arr [.str "filetype"]) :=
  ⟨rfl, rfl, rfl, rfl⟩

/-- Claim C3 (amended): for every input tree on which stage 2 succeeded,
`add_legacy_format` succeeds and replaces the schema at
`properties.streams.items.properties.format` with exactly a `oneOf` of
two members: the post-stage-2 format schema verbatim first, and the
fixed Legacy Format Node second; the second member declares `filetype`
as its sole required key (the first member, being the prior schema
verbatim, declares `filetype` required only if that schema already did). -/
theorem claim_C3_amended (t t2 : Json) (h : replace_enum_allOf_and_anyOf t = some t2) :
    ∃ F t3, getPath t2 formatPath = some F ∧ add_legacy_format t2 = some t3 ∧
      getPath t3 formatPath = some (.obj [("oneOf", .arr [F, legacy_format_options])]) ∧
      legacy_format_options.lookup "required" = some (.arr [.str "filetype"]) := by
  obtain ⟨fmt, fmt2, h1, h2, h3⟩ := replace_enum_format_out t t2 h
  obtain ⟨t3, h4, h5⟩ := add_legacy_out t2 fmt2 h3
  exact ⟨fmt2, t3, h3, h4, h5, rfl⟩

/-- Witness for claim C3 amended at the fixture tree. -/
theorem claim_C3_amended_witness :
    ∃ F t3, getPath cexRequiredStage2 formatPath = some F ∧
      add_legacy_format cexRequiredStage2 = some t3 ∧
      getPath t3 formatPath = some (.obj [("oneOf", .arr [F, legacy_format_options])]) ∧
      legacy_format_options.lookup "required" = some (.arr [.str "filetype"]) :=
  claim_C3_amended cexRequired cexRequiredStage2 rfl

/-! ### Claim C4 -/

/-- Claim C4 (confirmed): for each of `primary_key` and `input_schema`,
on every input whose schema at that field is exactly the two-member
`anyOf`, a successful `replace_enum_allOf_and_anyOf` leaves at that
field exactly the same two members, in order, under `oneOf`, with the
`anyOf` key removed and nothing else added, removed or changed. -/
theorem claim_C4 (p : String) (t t' T1 T2 : Json)
    (hp : p = "primary_key" ∨ p = "input_schema")
    (hfield : getPath t (streamPropsPath ++ [p]) = some (.obj [("anyOf", .arr [T1, T2])]))
    (h : replace_enum_allOf_and_anyOf t = some t') :
    getPath t' (streamPropsPath ++ [p]) = some (.obj [("oneOf", .arr [T1, T2])]) := by
  obtain ⟨fmt, fmt2, s1, s2, h1, h2, h3, h4, h5⟩ := replace_enum_elim t t' h
  have hnf : p ≠ "format" := by
    rcases hp with hp | hp <;> subst hp <;> decide
  have hs1 : getPath s1 (streamPropsPath ++ [p]) = getPath t (streamPropsPath ++ [p]) :=
    getPath_setPath_last_ne streamPropsPath "format" p t s1 fmt2 hnf (formatPath_eq ▸ h3)
  rcases hp with hp | hp
  · subst hp
    obtain ⟨fs, v, hg, ha, hout⟩ := renameAnyOf_out s1 s2 "primary_key" h4
    rw [hs1, hfield, Option.some_inj] at hg
    have hfs : fs = [("anyOf", Json.arr [T1, T2])] := by
      cases hg
      rfl
    subst hfs
    simp only [getKey] at ha
    rw [if_pos trivial, Option.some_inj] at ha
    subst ha
    have hrw : getPath t' (streamPropsPath ++ ["primary_key"]) =
        getPath s2 (streamPropsPath ++ ["primary_key"]) :=
      renameAnyOf_get_other s2 t' "input_schema" "primary_key" h5 (by decide)
    rw [hrw, hout]
    simp [popKey, setKey]
  · subst hp
    have hs2 : getPath s2 (streamPropsPath ++ ["input_schema"]) =
        getPath s1 (streamPropsPath ++ ["input_schema"]) :=
      renameAnyOf_get_other s1 s2 "primary_key" "input_schema" h4 (by decide)
    obtain ⟨fs, v, hg, ha, hout⟩ := renameAnyOf_out s2 t' "input_schema" h5
    rw [hs2, hs1, hfield, Option.some_inj] at hg
    have hfs : fs = [("anyOf", Json.arr [T1, T2])] := by
      cases hg
      rfl
    subst hfs
    simp only [getKey] at ha
    rw [if_pos trivial, Option.some_inj] at ha
    subst ha
    rw [hout]
    simp [popKey, setKey]

/-- Witness for claim C4 at the fixture tree. -/
theorem claim_C4_witness :
    getPath cexEnumHoistOut (streamPropsPath ++ ["primary_key"]) =
      some (.obj [("oneOf", .arr [.obj [("type", .str "string")],
        .obj [("type", .str "null")]])]) :=
  claim_C4 "primary_key" cexEnumHoist cexEnumHoistOut
    (.obj [("type", .str "string")]) (.obj [("type", .str "null")])
    (Or.inl rfl) rfl rfl

/-! ### Claim C5 -/

/-! ### The schema-shaped region: where the embedding's error boundary
is CPython's

The embedding reads every operand of `in`, subscripting and iteration
as a mapping or a sequence and turns every other case into a structural
error.  CPython agrees on mappings and sequences, and it also raises at
most of the other operands the function can reach (subscripting a
string, list, number, boolean or `None` by a string key raises
`TypeError`; `.pop` does not exist on them; `"k" in 5` raises) - but
not at all of them: `"k" in x` is a substring test when `x` is a string
and a membership test when it is a list, `for` over an empty string or
empty mapping iterates zero times, and a nonempty string is indexable
at 0 (yielding a one-character string that cannot contain `"enum"`).
The predicates below carve out the trees that avoid exactly those
operands at the positions `replace_enum_allOf_and_anyOf` inspects; on
such trees every single operation of the CPython run has the semantics
the embedding gives it, so the embedding's success is the program's
completion and the embedding's `none` is a CPython exception.  Each
excluded operand is listed, with its CPython behaviour, in the doc
comment of the predicate that excludes it. -/

/-- A field schema at which the inner loop's operations have plain
mapping/sequence semantics in CPython: a mapping whose `allOf` value,
when that key is present, is a sequence that is empty (both CPython and
the embedding raise an index fault there, see `fieldOk`) or has a
mapping first element.  Excluded, with the CPython behaviour that
differs from the embedding: a non-mapping field schema (for a string or
list, `"allOf" in x` is a substring/membership test that skips without
raising when it is negative); a non-sequence `allOf` value (a nonempty
string is indexable at 0 and the loop then skips); an `allOf` first
element that is not a mapping (a string or list can answer the
`"enum" in _` test positively and then raise on the subscript, while
the embedding reads the test as negative and skips; a number makes the
test itself raise). -/
def fieldShaped (v : Json) : Bool :=
  match v with
  | .obj fs =>
      match getKey fs "allOf" with
      | none => true
      | some (.arr []) => true
      | some (.arr (first :: _)) =>
          match first with
          | .obj _ => true
          | _ => false
      | some _ => false
  | _ => false

/-- A format alternative at which the outer loop's operations have
plain mapping/sequence semantics in CPython: either not a mapping at
all (`format["properties"]` then raises `TypeError` in CPython exactly
where the embedding fails), or a mapping whose `properties` value, when
that key is present, is a mapping of `fieldShaped` field schemas.
Excluded: a non-mapping `properties` value (an empty string or empty
list is iterated zero times in CPython instead of raising, and a list
can even be subscripted by its own integer elements). -/
def altShaped (alt : Json) : Bool :=
  match alt with
  | .obj fs =>
      match getKey fs "properties" with
      | none => true
      | some (.obj pfs) => pfs.all (fun p => fieldShaped p.2)
      | some _ => false
  | _ => true

/-- A format node at which the container rewrite's operations have
plain mapping/sequence semantics in CPython: a mapping whose
`additionalProperties` value, when that key is present and is itself a
mapping, carries an `anyOf` that is absent (the defaulted pop) or a
sequence of `altShaped` alternatives.  A non-mapping
`additionalProperties` value is allowed: `.pop` on it raises in CPython
(`AttributeError`/`TypeError`) exactly where the embedding fails.
Excluded: a non-mapping format node (`"additionalProperties" in x` is a
substring/membership test on strings and lists, which skips without
raising when negative) and a non-sequence `anyOf` value (an empty
string or empty mapping is iterated zero times by the `for` loop
instead of raising). -/
def formatShaped (fmt : Json) : Bool :=
  match fmt with
  | .obj fs =>
      match getKey fs "additionalProperties" with
      | none => true
      | some (.obj apFs) =>
          match getKey apFs "anyOf" with
          | none => true
          | some (.arr alts) => alts.all altShaped
          | some _ => false
      | some _ => true
  | _ => false

/-- Schema-shaped tree: the format node, when the fixed path resolves,
is `formatShaped`.  Nothing needs to be required of the path steps
themselves or of the `primary_key`/`input_schema` nodes: every failing
case there (a missing key of a mapping, subscripting a non-mapping by a
string key, `.pop` on a non-mapping) raises in CPython exactly where
the embedding fails. -/
def shapedReplace (t : Json) : Bool :=
  match getPath t formatPath with
  | some fmt => formatShaped fmt
  | none => true

/-- Claim C5 (counterexample): the spec asserts the function raises only
when the fixed `format` path is missing or `anyOf` is missing on
`primary_key` or `input_schema`.  On `cexMissingProps` all of those are
present, yet the function raises (`KeyError` at `format["properties"]`
in CPython), because a format alternative under
`additionalProperties.anyOf` has no `properties` key.  The tree is
schema-shaped, so the embedding's `none` is the CPython exception. -/
theorem claim_C5_counterexample :
    shapedReplace cexMissingProps = true ∧
    (getPath cexMissingProps formatPath).isSome = true ∧
    anyOfReady cexMissingProps "primary_key" = true ∧
    anyOfReady cexMissingProps "input_schema" = true ∧
    replace_enum_allOf_and_anyOf cexMissingProps = none :=
  ⟨rfl, rfl, rfl, rfl, rfl⟩

/-- Claim C5 (amended): on schema-shaped trees (`shapedReplace` - the
region in which every operation the function performs has the same
mapping/sequence semantics in CPython as in the embedding, every
pydantic-generated schema included), `replace_enum_allOf_and_anyOf`
raises exactly when one of the lookups it performs fails, i.e. exactly
when `wellFormedReplace` is false: the fixed `format` path must
resolve; when its node carries `additionalProperties`, that value must
be a mapping and each union alternative must carry a `properties` key
whose field schemas have nonempty `allOf` values when they have any;
and `anyOf` must be present on `primary_key` and `input_schema`.  On
every schema-shaped tree meeting these the function completes without
raising.  Within the embedding the equation holds for every tree
(`replace_enum_isSome`); the hypothesis scopes the claim to the trees
on which the embedding's failure boundary is the program's, since
outside it CPython's substring, membership and empty-iteration
semantics cut the raise boundary finer than the spec's single
lookup-fault class. -/
theorem claim_C5_amended (t : Json) (_h : shapedReplace t = true) :
    (replace_enum_allOf_and_anyOf t).isSome = wellFormedReplace t :=
  replace_enum_isSome t

/-- Witness for claim C5 amended: the fixture `cexEnumHoist` is
schema-shaped, and on it the function completes with
`wellFormedReplace` true. -/
theorem claim_C5_amended_witness :
    shapedReplace cexEnumHoist = true ∧
    (replace_enum_allOf_and_anyOf cexEnumHoist).isSome = wellFormedReplace cexEnumHoist :=
  ⟨rfl, claim_C5_amended cexEnumHoist rfl⟩

/-! ### Claim C7 -/

/-- Claim C7 (confirmed): a field whose schema carries `allOf` but whose
`allOf` first element carries no `enum` key is left completely
unchanged, `allOf` included, by a successful run of
`replace_enum_allOf_and_anyOf`. -/
theorem claim_C7 (t t' : Json) (alts alts2 : List Json) (i : Nat) (alt alt2 : Json)
    (k : String) (v e : Json) (rest : List Json)
    (h : replace_enum_allOf_and_anyOf t = some t')
    (ha : formatAnyOfAlts t = some alts) (ha2 : formatAlts t' = some alts2)
    (hi : alts.get? i = some alt) (hi2 : alts2.get? i = some alt2)
    (hv : altField alt k = some v)
    (hall : v.lookup "allOf" = some (.arr (e :: rest)))
    (henum : e.hasKey "enum" = false) :
    altField alt2 k = some v := by
  obtain ⟨alts2b, hm, ha2b⟩ := replace_enum_alts t t' alts h ha
  rw [ha2b, Option.some_inj] at ha2
  subst ha2
  obtain ⟨alt2b, hi2b, hta⟩ := optionMap_get? transformAlternative alts alts2b hm i alt hi
  rw [hi2b, Option.some_inj] at hi2
  subst hi2
  obtain ⟨v2, hv2, htp⟩ := transformAlternative_field_fwd alt alt2b k v hta hv
  have hkeep : transformProperty v = some v := by
    cases v with
    | obj fs =>
        have hle : e.lookup "enum" = none := by
          cases hle0 : e.lookup "enum" with
          | none => rfl
          | some x => simp [Json.hasKey, hle0] at henum
        exact transformProperty_keep fs e rest (by simpa [Json.lookup] using hall) hle
    | null => simp [Json.lookup] at hall
    | bool b => simp [Json.lookup] at hall
    | num n => simp [Json.lookup] at hall
    | str s2 => simp [Json.lookup] at hall
    | arr es => simp [Json.lookup] at hall
  rw [hkeep, Option.some_inj] at htp
  subst htp
  exact hv2

/-- Witness for claim C7 at the fixture tree. -/
theorem claim_C7_witness :
    altField cexAllOfKeptOutAlt "g" = some allOfNoEnumField :=
  claim_C7 cexAllOfKept cexAllOfKeptOut [altWithPlainAllOf] [cexAllOfKeptOutAlt] 0
    altWithPlainAllOf cexAllOfKeptOutAlt "g" allOfNoEnumField
    (.obj [("title", .str "X")]) [] rfl rfl rfl rfl rfl rfl rfl rfl

/-! ### Claim C8 -/

/-- Claim C8 (confirmed): the format-container rewrite is gated on the
`additionalProperties` key: when the format node is a mapping without
that key, a successful run of `replace_enum_allOf_and_anyOf` leaves the
whole format node unchanged (no `oneOf` introduced, nothing under it
rewritten). -/
theorem claim_C8 (t t' : Json) (fs : List (String × Json))
    (hfmt : getPath t formatPath = some (.obj fs))
    (hnoAP : getKey fs "additionalProperties" = none)
    (h : replace_enum_allOf_and_anyOf t = some t') :
    getPath t' formatPath = some (.obj fs) := by
  obtain ⟨fmt, fmt2, h1, h2, h3⟩ := replace_enum_format_out t t' h
  rw [hfmt, Option.some_inj] at h1
  subst h1
  rw [rewriteFormat_noAP fs hnoAP, Option.some_inj] at h2
  subst h2
  exact h3

/-- Witness for claim C8 at the fixture tree. -/
theorem claim_C8_witness :
    getPath cexRequiredStage2 formatPath =
      some (.obj [("required", .arr [.str "filetype"])]) :=
  claim_C8 cexRequired cexRequiredStage2 [("required", .arr [.str "filetype"])]
    rfl rfl rfl

/-! ### Claim C10 -/

/-- Claim C10 (counterexample): the claim asserts that on every tree
whose format node carries `additionalProperties` without `anyOf` the
function does not raise.  On `cexPkBroken` the format node is exactly
such a node, yet the function raises, because the later unconditional
`pop("anyOf")` on `primary_key` fails. -/
theorem claim_C10_counterexample :
    (getPath cexPkBroken (formatPath ++ ["additionalProperties"])).isSome = true ∧
    ((getPath cexPkBroken (formatPath ++ ["additionalProperties"])).bind
      (fun ap => ap.lookup "anyOf")) = none ∧
    replace_enum_allOf_and_anyOf cexPkBroken = none :=
  ⟨rfl, rfl, rfl⟩

/-- Claim C10 (amended): the `pop("anyOf", [])` on the format container
defaults instead of raising: for every tree whose format node carries an
`additionalProperties` mapping with no `anyOf` key - provided
`primary_key` and `input_schema` do carry `anyOf`, since their
unconditional pops still raise otherwise - `replace_enum_allOf_and_anyOf`
completes and sets `oneOf` on that `additionalProperties` mapping to the
empty list. -/
theorem claim_C10_amended (t : Json) (fs apFs : List (String × Json))
    (hfmt : getPath t formatPath = some (.obj fs))
    (hap : getKey fs "additionalProperties" = some (.obj apFs))
    (hnoAnyOf : getKey apFs "anyOf" = none)
    (hpk : anyOfReady t "primary_key" = true)
    (his : anyOfReady t "input_schema" = true) :
    ∃ t', replace_enum_allOf_and_anyOf t = some t' ∧
      getPath t' (formatPath ++ ["additionalProperties", "oneOf"]) = some (.arr []) := by
  have hok : formatOk (.obj fs) = true := by
    simp [formatOk, hap, hnoAnyOf]
  have hwf : wellFormedReplace t = true := by
    simp only [wellFormedReplace, hfmt, hpk, his, hok]
    rfl
  have hsome : (replace_enum_allOf_and_anyOf t).isSome = true := by
    rw [replace_enum_isSome, hwf]
  obtain ⟨t', ht'⟩ := Option.isSome_iff_exists.mp hsome
  refine ⟨t', ht', ?_⟩
  obtain ⟨fmt, fmt2, h1, h2, h3⟩ := replace_enum_format_out t t' ht'
  rw [hfmt, Option.some_inj] at h1
  subst h1
  rw [rewriteFormat_noAnyOf fs apFs hap hnoAnyOf, Option.some_inj] at h2
  subst h2
  simp only [getPath_append, h3, Option.some_bind]
  simp [getPath, Json.lookup, getKey_setKey_self]

/-- Witness for claim C10 amended at the fixture tree. -/
theorem claim_C10_amended_witness :
    ∃ t', replace_enum_allOf_and_anyOf fixNoAnyOf = some t' ∧
      getPath t' (formatPath ++ ["additionalProperties", "oneOf"]) = some (.arr []) :=
  claim_C10_amended fixNoAnyOf
    [("additionalProperties", .obj [("title", .str "Formats")])]
    [("title", .str "Formats")] rfl rfl rfl rfl rfl

/-! ### Addressed trees: object identity, deep copy, and the pipeline of
`AbstractFileBasedSpec.schema`

Python dictionaries and lists are heap objects with an identity; the
claims about deep-copy isolation and determinism are about that
identity.  `AJson` is a `Json` tree in which every node carries its
address (the `id()` of the Python object).  `copy.deepcopy` is modelled
from its library contract - a structurally equal tree all of whose nodes
are freshly allocated - as `relabel` with a fresh-address counter; the
two transformation stages are re-expressed on addressed trees, keeping
the address of every dict they mutate in place and drawing addresses for
the few nodes they allocate (`[]` defaults, the legacy-format literal
and its wrapper) from the counter.  Erasing the addresses of the
addressed pipeline gives back the pure pipeline above. -/

/-- A JSON value in which every node carries its heap address. -/
inductive AJson where
  | nullA : Nat → AJson
  | boolA : Nat → Bool → AJson
  | numA : Nat → Int → AJson
  | strA : Nat → String → AJson
  | arrA : Nat → List AJson → AJson
  | objA : Nat → List (String × AJson) → AJson

/-- Address of the root node. -/
def addrOf : AJson → Nat
  | .nullA a => a
  | .boolA a _ => a
  | .numA a _ => a
  | .strA a _ => a
  | .arrA a _ => a
  | .objA a _ => a

mutual

/-- Forget the addresses. -/
def eraseA : AJson → Json
  | .nullA _ => .null
  | .boolA _ b => .bool b
  | .numA _ n => .num n
  | .strA _ s => .str s
  | .arrA _ es => .arr (eraseListA es)
  | .objA _ fs => .obj (eraseFieldsA fs)

/-- Forget the addresses of a list of nodes. -/
def eraseListA : List AJson → List Json
  | [] => []
  | e :: es => eraseA e :: eraseListA es

/-- Forget the addresses of the values of an association list. -/
def eraseFieldsA : List (String × AJson) → List (String × Json)
  | [] => []
  | (k, v) :: fs => (k, eraseA v) :: eraseFieldsA fs

end

mutual

/-- All addresses occurring in a tree. -/
def addrsA : AJson → List Nat
  | .nullA a => [a]
  | .boolA a _ => [a]
  | .numA a _ => [a]
  | .strA a _ => [a]
  | .arrA a es => a :: addrsListA es
  | .objA a fs => a :: addrsFieldsA fs

/-- All addresses occurring in a list of nodes. -/
def addrsListA : List AJson → List Nat
  | [] => []
  | e :: es => addrsA e ++ addrsListA es

/-- All addresses occurring in the values of an association list. -/
def addrsFieldsA : List (String × AJson) → List Nat
  | [] => []
  | (_, v) :: fs => addrsA v ++ addrsFieldsA fs

end

mutual

/-- Attach fresh addresses from a counter to every node of a pure tree,
returning the addressed tree and the next unused counter. -/
def relabel : Json → Nat → AJson × Nat
  | .null, c => (.nullA c, c + 1)
  | .bool b, c => (.boolA c b, c + 1)
  | .num n, c => (.numA c n, c + 1)
  | .str s, c => (.strA c s, c + 1)
  | .arr es, c => (.arrA c (relabelList es (c + 1)).1, (relabelList es (c + 1)).2)
  | .obj fs, c => (.objA c (relabelFields fs (c + 1)).1, (relabelFields fs (c + 1)).2)

/-- Relabel every node of a list. -/
def relabelList : List Json → Nat → List AJson × Nat
  | [], c => ([], c)
  | e :: es, c =>
      ((relabel e c).1 :: (relabelList es (relabel e c).2).1,
        (relabelList es (relabel e c).2).2)

/-- Relabel every value of an association list. -/
def relabelFields : List (String × Json) → Nat → List (String × AJson) × Nat
  | [], c => ([], c)
  | (k, v) :: fs, c =>
      ((k, (relabel v c).1) :: (relabelFields fs (relabel v c).2).1,
        (relabelFields fs (relabel v c).2).2)

end

mutual

/-- Overwrite every node whose address is `a` with `x` (a store through
a pointer with that address). -/
def mutateAt : AJson → Nat → AJson → AJson
  | t, a, x =>
      if addrOf t = a then x else
      match t with
      | .arrA b es => .arrA b (mutateListAt es a x)
      | .objA b fs => .objA b (mutateFieldsAt fs a x)
      | u => u

/-- Overwrite inside a list of nodes. -/
def mutateListAt : List AJson → Nat → AJson → List AJson
  | [], _, _ => []
  | e :: es, a, x => mutateAt e a x :: mutateListAt es a x

/-- Overwrite inside the values of an association list. -/
def mutateFieldsAt : List (String × AJson) → Nat → AJson → List (String × AJson)
  | [], _, _ => []
  | (k, v) :: fs, a, x => (k, mutateAt v a x) :: mutateFieldsAt fs a x

end

/-- Key lookup on an addressed value. -/
def lookupA : AJson → String → Option AJson
  | .objA _ fs, k => getKey fs k
  | _, _ => none

/-- Chained key lookup on addressed trees. -/
def getPathA : AJson → List String → Option AJson
  | j, [] => some j
  | j, k :: ks =>
      match lookupA j k with
      | some v => getPathA v ks
      | none => none

/-- Write-back along a key path; every dictionary on the path is mutated
in place, so it keeps its address. -/
def setPathA : AJson → List String → AJson → Option AJson
  | _, [], v => some v
  | .objA a fs, k :: ks, v =>
      match getKey fs k with
      | some w => Option.map (fun w2 => AJson.objA a (setKey fs k w2)) (setPathA w ks v)
      | none => none
  | _, _ :: _, _ => none

/-- Addressed inner-loop body: the field dict is mutated in place (its
address is kept); the hoisted enum value is the very list object that
sat inside `allOf[0]` (no copy). -/
def transformPropertyA (op : AJson) : Option AJson :=
  match op with
  | .objA a fs =>
      match getKey fs "allOf" with
      | none => some op
      | some (.arrA _ (first :: _)) =>
          match lookupA first "enum" with
          | some ev => some (.objA a (popKey (setKey fs "enum" ev) "allOf"))
          | none => some op
      | some _ => none
  | _ => none

/-- Addressed outer-loop body: alternative and properties dicts are
mutated in place, keeping their addresses. -/
def transformAlternativeA (alt : AJson) : Option AJson :=
  match alt with
  | .objA a fs =>
      match getKey fs "properties" with
      | some (.objA pa pfs) =>
          Option.map (fun pfs2 => AJson.objA a (setKey fs "properties" (AJson.objA pa pfs2)))
            (mapValues transformPropertyA pfs)
      | _ => none
  | _ => none

/-- Addressed format-container rewrite.  The counter supplies the
address of the fresh `[]` default allocated when `anyOf` is absent; in
all other cases every node is reused (dicts mutated in place, the
`anyOf` list object moved under the `oneOf` key). -/
def rewriteFormatA (fmt : AJson) (c : Nat) : Option (AJson × Nat) :=
  match fmt with
  | .objA a fs =>
      match getKey fs "additionalProperties" with
      | none => some (fmt, c)
      | some (.objA pa apFs) =>
          match getKey apFs "anyOf" with
          | some (.arrA la alts) =>
              Option.map (fun alts2 =>
                  (AJson.objA a (setKey fs "additionalProperties"
                    (AJson.objA pa (setKey (popKey apFs "anyOf") "oneOf"
                      (AJson.arrA la alts2)))), c))
                (optionMap transformAlternativeA alts)
          | none =>
              some (AJson.objA a (setKey fs "additionalProperties"
                (AJson.objA pa (setKey apFs "oneOf" (AJson.arrA c [])))), c + 1)
          | some _ => none
      | some _ => none
  | _ => none

/-- Addressed anyOf-to-oneOf rename: the stream-field dict is mutated in
place and the popped value reused. -/
def renameAnyOfA (t : AJson) (p : String) : Option AJson :=
  match getPathA t (streamPropsPath ++ [p]) with
  | some (.objA a fs) =>
      match getKey fs "anyOf" with
      | some v => setPathA t (streamPropsPath ++ [p])
          (AJson.objA a (setKey (popKey fs "anyOf") "oneOf" v))
      | none => none
  | _ => none

/-- Addressed `replace_enum_allOf_and_anyOf`. -/
def replace_enumA (t : AJson) (c : Nat) : Option (AJson × Nat) :=
  (getPathA t formatPath).bind (fun fmt =>
    (rewriteFormatA fmt c).bind (fun fc =>
      (setPathA t formatPath fc.1).bind (fun s1 =>
        (renameAnyOfA s1 "primary_key").bind (fun s2 =>
          (renameAnyOfA s2 "input_schema").bind (fun s3 =>
            some (s3, fc.2))))))

/-- Addressed `add_legacy_format`: the legacy-format literal and the
wrapper dict and list are freshly allocated on every call; the prior
format node is reused as the first `oneOf` element. -/
def add_legacyA (t : AJson) (c : Nat) : Option (AJson × Nat) :=
  match getPathA t formatPath with
  | some fmt =>
      Option.map (fun t2 => (t2, (relabel legacy_format_options c).2 + 2))
        (setPathA t formatPath
          (AJson.objA ((relabel legacy_format_options c).2 + 1)
            [("oneOf", AJson.arrA (relabel legacy_format_options c).2
              [fmt, (relabel legacy_format_options c).1])]))
  | none => none

/-- Modelled from the spec: `copy.deepcopy` (Python standard library,
outside this repository) by its contract produces a structurally equal
tree sharing no mutable substructure with its input - a relabelling of
the erasure with all-fresh addresses. -/
def deepcopyA (t : AJson) (c : Nat) : AJson × Nat :=
  relabel (eraseA t) c

/-- Modelled from the spec: the Reference Expander (§4.1, contract only;
`expand_refs` is not under `src/`).  Its output is the pure expansion of
the tree; its node-reuse behaviour is unspecified, and it runs on the
fresh deep copy, so its output addresses are modelled as drawn from the
counter (at or above the deep-copy watermark, like the nodes it would
reuse). -/
def expandRefsA (t : AJson) (c : Nat) : AJson × Nat :=
  relabel (expand_refs (eraseA t)) c

/-- The addressed pipeline of `AbstractFileBasedSpec.schema`: deep-copy
the raw tree, then run the three stages on the copy. -/
def schemaA (raw : AJson) (c : Nat) : Option (AJson × Nat) :=
  (replace_enumA (expandRefsA (deepcopyA raw c).1 (deepcopyA raw c).2).1
      (expandRefsA (deepcopyA raw c).1 (deepcopyA raw c).2).2).bind
    (fun r1 => add_legacyA r1.1 r1.2)

/-! ### Relabelling lemmas -/

mutual

theorem relabel_erase : ∀ (j : Json) (c : Nat), eraseA (relabel j c).1 = j
  | .null, _ => rfl
  | .bool _, _ => rfl
  | .num _, _ => rfl
  | .str _, _ => rfl
  | .arr es, c => by
      simp only [relabel, eraseA]
      rw [relabelList_erase es (c + 1)]
  | .obj fs, c => by
      simp only [relabel, eraseA]
      rw [relabelFields_erase fs (c + 1)]

theorem relabelList_erase : ∀ (es : List Json) (c : Nat),
    eraseListA (relabelList es c).1 = es
  | [], _ => rfl
  | e :: es, c => by
      simp only [relabelList, eraseListA]
      rw [relabel_erase e c, relabelList_erase es (relabel e c).2]

theorem relabelFields_erase : ∀ (fs : List (String × Json)) (c : Nat),
    eraseFieldsA (relabelFields fs c).1 = fs
  | [], _ => rfl
  | (k, v) :: fs, c => by
      simp only [relabelFields, eraseFieldsA]
      rw [relabel_erase v c, relabelFields_erase fs (relabel v c).2]

end

mutual

theorem relabel_le : ∀ (j : Json) (c : Nat), c ≤ (relabel j c).2
  | .null, c => Nat.le_succ c
  | .bool _, c => Nat.le_succ c
  | .num _, c => Nat.le_succ c
  | .str _, c => Nat.le_succ c
  | .arr es, c => by
      simp only [relabel]
      exact le_trans (Nat.le_succ c) (relabelList_le es (c + 1))
  | .obj fs, c => by
      simp only [relabel]
      exact le_trans (Nat.le_succ c) (relabelFields_le fs (c + 1))

theorem relabelList_le : ∀ (es : List Json) (c : Nat), c ≤ (relabelList es c).2
  | [], _ => le_refl _
  | e :: es, c => by
      simp only [relabelList]
      exact le_trans (relabel_le e c) (relabelList_le es (relabel e c).2)

theorem relabelFields_le : ∀ (fs : List (String × Json)) (c : Nat),
    c ≤ (relabelFields fs c).2
  | [], _ => le_refl _
  | (k, v) :: fs, c => by
      simp only [relabelFields]
      exact le_trans (relabel_le v c) (relabelFields_le fs (relabel v c).2)

end

mutual

theorem relabel_allGE : ∀ (j : Json) (c a : Nat), a ∈ addrsA (relabel j c).1 → c ≤ a
  | .null, c, a, h => by
      simp only [relabel, addrsA, List.mem_singleton] at h
      omega
  | .bool _, c, a, h => by
      simp only [relabel, addrsA, List.mem_singleton] at h
      omega
  | .num _, c, a, h => by
      simp only [relabel, addrsA, List.mem_singleton] at h
      omega
  | .str _, c, a, h => by
      simp only [relabel, addrsA, List.mem_singleton] at h
      omega
  | .arr es, c, a, h => by
      simp only [relabel, addrsA, List.mem_cons] at h
      rcases h with h | h
      · omega
      · exact le_trans (Nat.le_succ c) (relabelList_allGE es (c + 1) a h)
  | .obj fs, c, a, h => by
      simp only [relabel, addrsA, List.mem_cons] at h
      rcases h with h | h
      · omega
      · exact le_trans (Nat.le_succ c) (relabelFields_allGE fs (c + 1) a h)

theorem relabelList_allGE : ∀ (es : List Json) (c a : Nat),
    a ∈ addrsListA (relabelList es c).1 → c ≤ a
  | [], c, a, h => by simp [relabelList, addrsListA] at h
  | e :: es, c, a, h => by
      simp only [relabelList, addrsListA, List.mem_append] at h
      rcases h with h | h
      · exact relabel_allGE e c a h
      · exact le_trans (relabel_le e c) (relabelList_allGE es (relabel e c).2 a h)

theorem relabelFields_allGE : ∀ (fs : List (String × Json)) (c a : Nat),
    a ∈ addrsFieldsA (relabelFields fs c).1 → c ≤ a
  | [], c, a, h => by simp [relabelFields, addrsFieldsA] at h
  | (k, v) :: fs, c, a, h => by
      simp only [relabelFields, addrsFieldsA, List.mem_append] at h
      rcases h with h | h
      · exact relabel_allGE v c a h
      · exact le_trans (relabel_le v c) (relabelFields_allGE fs (relabel v c).2 a h)

end

/-! ### Erase-correspondence for the basic operations -/

theorem getKey_eraseFields (fs : List (String × AJson)) (k : String) :
    getKey (eraseFieldsA fs) k = Option.map eraseA (getKey fs k) := by
  induction fs with
  | nil => rfl
  | cons p rest ih =>
      obtain ⟨k0, v0⟩ := p
      by_cases h : k0 = k
      · simp [eraseFieldsA, getKey, h]
      · simp [eraseFieldsA, getKey, h, ih]

theorem eraseFields_setKey (fs : List (String × AJson)) (k : String) (v : AJson) :
    eraseFieldsA (setKey fs k v) = setKey (eraseFieldsA fs) k (eraseA v) := by
  induction fs with
  | nil => rfl
  | cons p rest ih =>
      obtain ⟨k0, v0⟩ := p
      by_cases h : k0 = k
      · simp [eraseFieldsA, setKey, h]
      · simp [eraseFieldsA, setKey, h, ih]

theorem eraseFields_popKey (fs : List (String × AJson)) (k : String) :
    eraseFieldsA (popKey fs k) = popKey (eraseFieldsA fs) k := by
  induction fs with
  | nil => rfl
  | cons p rest ih =>
      obtain ⟨k0, v0⟩ := p
      by_cases h : k0 = k
      · simp [eraseFieldsA, popKey, h, ih]
      · simp [eraseFieldsA, popKey, h, ih]

theorem lookup_erase (t : AJson) (k : String) :
    (eraseA t).lookup k = Option.map eraseA (lookupA t k) := by
  cases t with
  | objA a fs => simp [eraseA, Json.lookup, lookupA, getKey_eraseFields]
  | nullA a => rfl
  | boolA a b => rfl
  | numA a n => rfl
  | strA a s2 => rfl
  | arrA a es => rfl

theorem getPath_erase (t : AJson) (p : List String) :
    getPath (eraseA t) p = Option.map eraseA (getPathA t p) := by
  induction p generalizing t with
  | nil => rfl
  | cons k ks ih =>
      simp only [getPath, getPathA, lookup_erase]
      cases lookupA t k with
      | none => rfl
      | some v => simpa using ih v

theorem setPath_erase (t : AJson) (p : List String) (v : AJson) :
    setPath (eraseA t) p (eraseA v) = Option.map eraseA (setPathA t p v) := by
  induction p generalizing t with
  | nil => cases t <;> rfl
  | cons k ks ih =>
      cases t with
      | objA a fs =>
          simp only [eraseA, setPath, setPathA, getKey_eraseFields]
          cases hg : getKey fs k with
          | none => rfl
          | some w =>
              simp only [Option.map_some']
              rw [ih w]
              cases setPathA w ks v with
              | none => rfl
              | some w2 => simp [eraseFields_setKey, eraseA]
      | nullA a => rfl
      | boolA a b => rfl
      | numA a n => rfl
      | strA a s2 => rfl
      | arrA a es => rfl

/-! ### Erase-correspondence for the transformation stages -/

theorem transformProperty_erase (op : AJson) :
    transformProperty (eraseA op) = Option.map eraseA (transformPropertyA op) := by
  cases op with
  | objA a fs =>
      simp only [eraseA, transformProperty, transformPropertyA, getKey_eraseFields]
      cases hg : getKey fs "allOf" with
      | none => rfl
      | some w =>
          cases w with
          | arrA la l =>
              cases l with
              | nil => rfl
              | cons first rest =>
                  simp only [Option.map_some', eraseA, eraseListA]
                  rw [lookup_erase]
                  cases he : lookupA first "enum" with
                  | none => rfl
                  | some ev =>
                      simp only [Option.map_some']
                      rw [← eraseFields_setKey, ← eraseFields_popKey]
                      rfl
          | nullA b => rfl
          | boolA b b2 => rfl
          | numA b n => rfl
          | strA b s2 => rfl
          | objA b gs => rfl
  | nullA a => rfl
  | boolA a b => rfl
  | numA a n => rfl
  | strA a s2 => rfl
  | arrA a es => rfl

theorem mapValues_erase (f : AJson → Option AJson) (g : Json → Option Json)
    (hfg : ∀ x, g (eraseA x) = Option.map eraseA (f x)) (fs : List (String × AJson)) :
    mapValues g (eraseFieldsA fs) = Option.map eraseFieldsA (mapValues f fs) := by
  induction fs with
  | nil => rfl
  | cons p rest ih =>
      obtain ⟨k, v⟩ := p
      simp only [eraseFieldsA, mapValues, hfg v, ih]
      cases f v with
      | none => rfl
      | some v2 =>
          cases mapValues f rest with
          | none => rfl
          | some rest2 => simp [eraseFieldsA]

theorem optionMap_erase (f : AJson → Option AJson) (g : Json → Option Json)
    (hfg : ∀ x, g (eraseA x) = Option.map eraseA (f x)) (es : List AJson) :
    optionMap g (eraseListA es) = Option.map eraseListA (optionMap f es) := by
  induction es with
  | nil => rfl
  | cons e rest ih =>
      simp only [eraseListA, optionMap, hfg e, ih]
      cases f e with
      | none => rfl
      | some e2 =>
          cases optionMap f rest with
          | none => rfl
          | some rest2 => simp [eraseListA]

theorem transformAlternative_erase (alt : AJson) :
    transformAlternative (eraseA alt) = Option.map eraseA (transformAlternativeA alt) := by
  cases alt with
  | objA a fs =>
      simp only [eraseA, transformAlternative, transformAlternativeA, getKey_eraseFields]
      cases hp : getKey fs "properties" with
      | none => rfl
      | some w =>
          cases w with
          | objA pa pfs =>
              simp only [Option.map_some', eraseA]
              rw [mapValues_erase transformPropertyA transformProperty
                transformProperty_erase pfs]
              cases mapValues transformPropertyA pfs with
              | none => rfl
              | some pfs2 => simp [eraseFields_setKey, eraseA]
          | nullA b => rfl
          | boolA b b2 => rfl
          | numA b n => rfl
          | strA b s2 => rfl
          | arrA b es => rfl
  | nullA a => rfl
  | boolA a b => rfl
  | numA a n => rfl
  | strA a s2 => rfl
  | arrA a es => rfl

theorem rewriteFormat_erase (fmt : AJson) (c : Nat) :
    rewriteFormat (eraseA fmt) =
      Option.map (fun r => eraseA r.1) (rewriteFormatA fmt c) := by
  cases fmt with
  | objA a fs =>
      simp only [eraseA, rewriteFormat, rewriteFormatA, getKey_eraseFields]
      cases hap : getKey fs "additionalProperties" with
      | none => rfl
      | some w =>
          cases w with
          | objA pa apFs =>
              simp only [Option.map_some', eraseA]
              rw [getKey_eraseFields]
              cases ha : getKey apFs "anyOf" with
              | none =>
                  simp only [Option.map_none', Option.getD_none]
                  rw [popKey_of_getKey_none (eraseFieldsA apFs) "anyOf"
                    (by rw [getKey_eraseFields, ha]; rfl)]
                  simp only [optionMap, Option.map_some']
                  have harr : (Json.arr [] : Json) = eraseA (AJson.arrA c []) := rfl
                  rw [harr, ← eraseFields_setKey]
                  have hobj : Json.obj (eraseFieldsA (setKey apFs "oneOf" (AJson.arrA c []))) =
                      eraseA (AJson.objA pa (setKey apFs "oneOf" (AJson.arrA c []))) := rfl
                  rw [hobj, ← eraseFields_setKey]
                  rfl
              | some u =>
                  cases u with
                  | arrA la alts =>
                      simp only [Option.map_some', Option.getD_some, eraseA]
                      rw [optionMap_erase transformAlternativeA transformAlternative
                        transformAlternative_erase alts]
                      cases optionMap transformAlternativeA alts with
                      | none => rfl
                      | some alts2 =>
                          simp only [Option.map_some']
                          rw [← eraseFields_popKey]
                          have harr : Json.arr (eraseListA alts2) =
                              eraseA (AJson.arrA la alts2) := rfl
                          rw [harr, ← eraseFields_setKey]
                          have hobj : Json.obj (eraseFieldsA
                              (setKey (popKey apFs "anyOf") "oneOf" (AJson.arrA la alts2))) =
                              eraseA (AJson.objA pa
                                (setKey (popKey apFs "anyOf") "oneOf" (AJson.arrA la alts2))) := rfl
                          rw [hobj, ← eraseFields_setKey]
                          rfl
                  | nullA b => rfl
                  | boolA b b2 => rfl
                  | numA b n => rfl
                  | strA b s2 => rfl
                  | objA b gs => rfl
          | nullA b => rfl
          | boolA b b2 => rfl
          | numA b n => rfl
          | strA b s2 => rfl
          | arrA b es => rfl
  | nullA a => rfl
  | boolA a b => rfl
  | numA a n => rfl
  | strA a s2 => rfl
  | arrA a es => rfl

theorem renameAnyOf_erase (t : AJson) (p : String) :
    renameAnyOf (eraseA t) p = Option.map eraseA (renameAnyOfA t p) := by
  simp only [renameAnyOf, renameAnyOfA, getPath_erase]
  cases hg : getPathA t (streamPropsPath ++ [p]) with
  | none => rfl
  | some w =>
      cases w with
      | objA a fs =>
          simp only [Option.map_some', eraseA]
          rw [getKey_eraseFields]
          cases ha : getKey fs "anyOf" with
          | none => rfl
          | some v =>
              simp only [Option.map_some']
              rw [← eraseFields_popKey, ← eraseFields_setKey]
              have hobj : Json.obj (eraseFieldsA (setKey (popKey fs "anyOf") "oneOf" v)) =
                  eraseA (AJson.objA a (setKey (popKey fs "anyOf") "oneOf" v)) := rfl
              rw [hobj]
              exact setPath_erase t (streamPropsPath ++ [p]) _
      | nullA a => rfl
      | boolA a b => rfl
      | numA a n => rfl
      | strA a s2 => rfl
      | arrA a es => rfl

theorem replace_enum_erase (t : AJson) (c : Nat) :
    replace_enum_allOf_and_anyOf (eraseA t) =
      Option.map (fun r => eraseA r.1) (replace_enumA t c) := by
  simp only [replace_enum_allOf_and_anyOf, replace_enumA, getPath_erase]
  cases getPathA t formatPath with
  | none => rfl
  | some fmt =>
      simp only [Option.map_some', Option.some_bind]
      rw [rewriteFormat_erase fmt c]
      cases rewriteFormatA fmt c with
      | none => rfl
      | some fc =>
          simp only [Option.map_some', Option.some_bind]
          rw [setPath_erase t formatPath fc.1]
          cases setPathA t formatPath fc.1 with
          | none => rfl
          | some s1 =>
              simp only [Option.map_some', Option.some_bind]
              rw [renameAnyOf_erase s1 "primary_key"]
              cases renameAnyOfA s1 "primary_key" with
              | none => rfl
              | some s2 =>
                  simp only [Option.map_some', Option.some_bind]
                  rw [renameAnyOf_erase s2 "input_schema"]
                  cases renameAnyOfA s2 "input_schema" with
                  | none => rfl
                  | some s3 => rfl

theorem add_legacy_erase (t : AJson) (c : Nat) :
    add_legacy_format (eraseA t) =
      Option.map (fun r => eraseA r.1) (add_legacyA t c) := by
  simp only [add_legacy_format, add_legacyA, getPath_erase]
  cases getPathA t formatPath with
  | none => rfl
  | some fmt =>
      simp only [Option.map_some', Option.some_bind]
      have h2 : eraseA (AJson.objA ((relabel legacy_format_options c).2 + 1)
          [("oneOf", AJson.arrA (relabel legacy_format_options c).2
            [fmt, (relabel legacy_format_options c).1])]) =
          Json.obj [("oneOf", Json.arr [eraseA fmt,
            eraseA (relabel legacy_format_options c).1])] := rfl
      rw [relabel_erase] at h2
      rw [← h2, setPath_erase t formatPath]
      cases setPathA t formatPath (AJson.objA ((relabel legacy_format_options c).2 + 1)
          [("oneOf", AJson.arrA (relabel legacy_format_options c).2
            [fmt, (relabel legacy_format_options c).1])]) with
      | none => rfl
      | some t2 => rfl

theorem schema_erase (raw : AJson) (c : Nat) :
    schemaTransform (eraseA raw) =
      Option.map (fun r => eraseA r.1) (schemaA raw c) := by
  simp only [schemaTransform, schemaA, expandRefsA, deepcopyA]
  rw [relabel_erase (eraseA raw) c]
  have h1 := replace_enum_erase
    (relabel (expand_refs (eraseA raw)) (relabel (eraseA raw) c).2).1
    (relabel (expand_refs (eraseA raw)) (relabel (eraseA raw) c).2).2
  rw [relabel_erase] at h1
  rw [h1]
  cases replace_enumA (relabel (expand_refs (eraseA raw)) (relabel (eraseA raw) c).2).1
      (relabel (expand_refs (eraseA raw)) (relabel (eraseA raw) c).2).2 with
  | none => rfl
  | some r1 =>
      simp only [Option.map_some', Option.some_bind]
      exact add_legacy_erase r1.1 r1.2

/-! ### Address-containment lemmas: the transforms reuse input nodes and
draw any fresh node from the counter -/

theorem addrs_getKey (fs : List (String × AJson)) (k : String) (v : AJson)
    (h : getKey fs k = some v) (a : Nat) (ha : a ∈ addrsA v) : a ∈ addrsFieldsA fs := by
  induction fs with
  | nil => simp [getKey] at h
  | cons p rest ih =>
      obtain ⟨k0, v0⟩ := p
      by_cases h0 : k0 = k
      · simp only [getKey, if_pos h0, Option.some_inj] at h
        subst h
        simp [addrsFieldsA, ha]
      · simp only [getKey, if_neg h0] at h
        simp [addrsFieldsA, ih h]

theorem addrs_setKey (fs : List (String × AJson)) (k : String) (v : AJson) (a : Nat)
    (ha : a ∈ addrsFieldsA (setKey fs k v)) : a ∈ addrsFieldsA fs ∨ a ∈ addrsA v := by
  induction fs with
  | nil =>
      simp only [setKey, addrsFieldsA, List.append_nil] at ha
      exact Or.inr ha
  | cons p rest ih =>
      obtain ⟨k0, v0⟩ := p
      by_cases h0 : k0 = k
      · simp only [setKey, if_pos h0, addrsFieldsA, List.mem_append] at ha
        rcases ha with ha | ha
        · exact Or.inr ha
        · exact Or.inl (by simp [addrsFieldsA, ha])
      · simp only [setKey, if_neg h0, addrsFieldsA, List.mem_append] at ha
        rcases ha with ha | ha
        · exact Or.inl (by simp [addrsFieldsA, ha])
        · rcases ih ha with ha | ha
          · exact Or.inl (by simp [addrsFieldsA, ha])
          · exact Or.inr ha

theorem addrs_popKey (fs : List (String × AJson)) (k : String) (a : Nat)
    (ha : a ∈ addrsFieldsA (popKey fs k)) : a ∈ addrsFieldsA fs := by
  induction fs with
  | nil => simpa [popKey] using ha
  | cons p rest ih =>
      obtain ⟨k0, v0⟩ := p
      by_cases h0 : k0 = k
      · simp only [popKey, if_pos h0] at ha
        simp [addrsFieldsA, ih ha]
      · simp only [popKey, if_neg h0, addrsFieldsA, List.mem_append] at ha
        rcases ha with ha | ha
        · simp [addrsFieldsA, ha]
        · simp [addrsFieldsA, ih ha]

theorem addrs_lookupA (t : AJson) (k : String) (v : AJson) (a : Nat)
    (h : lookupA t k = some v) (ha : a ∈ addrsA v) : a ∈ addrsA t := by
  cases t with
  | objA b fs =>
      simp only [lookupA] at h
      simp [addrsA, addrs_getKey fs k v h a ha]
  | nullA b => simp [lookupA] at h
  | boolA b b2 => simp [lookupA] at h
  | numA b n => simp [lookupA] at h
  | strA b s2 => simp [lookupA] at h
  | arrA b es => simp [lookupA] at h

theorem addrs_getPathA (t : AJson) (p : List String) (v : AJson) (a : Nat)
    (h : getPathA t p = some v) (ha : a ∈ addrsA v) : a ∈ addrsA t := by
  induction p generalizing t with
  | nil =>
      simp only [getPathA, Option.some_inj] at h
      subst h
      exact ha
  | cons k ks ih =>
      simp only [getPathA] at h
      cases hl : lookupA t k with
      | none => rw [hl] at h; simp at h
      | some w =>
          rw [hl] at h
          exact addrs_lookupA t k w a hl (ih w h)

theorem addrs_setPathA (t : AJson) (p : List String) (v t2 : AJson) (a : Nat)
    (h : setPathA t p v = some t2) (ha : a ∈ addrsA t2) :
    a ∈ addrsA t ∨ a ∈ addrsA v := by
  induction p generalizing t t2 with
  | nil =>
      simp only [setPathA, Option.some_inj] at h
      subst h
      exact Or.inr ha
  | cons k ks ih =>
      cases t with
      | objA b fs =>
          simp only [setPathA] at h
          cases hg : getKey fs k with
          | none => rw [hg] at h; simp at h
          | some w =>
              rw [hg] at h
              rw [Option.map_eq_some'] at h
              obtain ⟨w2, hw2, ht2⟩ := h
              subst ht2
              simp only [addrsA, List.mem_cons] at ha
              rcases ha with ha | ha
              · exact Or.inl (by simp [addrsA, ha])
              · rcases addrs_setKey fs k w2 a ha with ha | ha
                · exact Or.inl (by simp [addrsA, ha])
                · rcases ih w w2 hw2 ha with ha | ha
                  · exact Or.inl (by simp [addrsA, addrs_getKey fs k w hg a ha])
                  · exact Or.inr ha
      | nullA b => simp [setPathA] at h
      | boolA b b2 => simp [setPathA] at h
      | numA b n => simp [setPathA] at h
      | strA b s2 => simp [setPathA] at h
      | arrA b es => simp [setPathA] at h

theorem addrs_head_list (e : AJson) (es : List AJson) (a : Nat) (ha : a ∈ addrsA e) :
    a ∈ addrsListA (e :: es) := by
  simp [addrsListA, ha]

theorem addrs_transformPropertyA (op op2 : AJson) (a : Nat)
    (h : transformPropertyA op = some op2) (ha : a ∈ addrsA op2) : a ∈ addrsA op := by
  cases op with
  | objA b fs =>
      simp only [transformPropertyA] at h
      cases hg : getKey fs "allOf" with
      | none =>
          rw [hg, Option.some_inj] at h
          subst h
          exact ha
      | some w =>
          rw [hg] at h
          cases w with
          | arrA la l =>
              cases l with
              | nil => simp at h
              | cons first rest =>
                  dsimp only at h
                  cases he : lookupA first "enum" with
                  | none =>
                      rw [he, Option.some_inj] at h
                      subst h
                      exact ha
                  | some ev =>
                      rw [he, Option.some_inj] at h
                      subst h
                      simp only [addrsA, List.mem_cons] at ha
                      rcases ha with ha | ha
                      · simp [addrsA, ha]
                      · rcases addrs_setKey fs "enum" ev a
                            (addrs_popKey (setKey fs "enum" ev) "allOf" a ha) with hb | hb
                        · simp [addrsA, hb]
                        · have h1 : a ∈ addrsA first := addrs_lookupA first "enum" ev a he hb
                          have h2 : a ∈ addrsA (AJson.arrA la (first :: rest)) := by
                            simp [addrsA, addrs_head_list first rest a h1]
                          simp [addrsA, addrs_getKey fs "allOf" _ hg a h2]
          | nullA b2 => simp at h
          | boolA b2 b3 => simp at h
          | numA b2 n => simp at h
          | strA b2 s2 => simp at h
          | objA b2 gs => simp at h
  | nullA b => simp [transformPropertyA] at h
  | boolA b b2 => simp [transformPropertyA] at h
  | numA b n => simp [transformPropertyA] at h
  | strA b s2 => simp [transformPropertyA] at h
  | arrA b es => simp [transformPropertyA] at h

theorem addrs_mapValues (f : AJson → Option AJson)
    (hf : ∀ x y, f x = some y → ∀ a, a ∈ addrsA y → a ∈ addrsA x)
    (fs fs2 : List (String × AJson)) (h : mapValues f fs = some fs2) (a : Nat)
    (ha : a ∈ addrsFieldsA fs2) : a ∈ addrsFieldsA fs := by
  induction fs generalizing fs2 with
  | nil =>
      simp only [mapValues, Option.some_inj] at h
      subst h
      simpa [addrsFieldsA] using ha
  | cons p rest ih =>
      obtain ⟨k, v⟩ := p
      simp only [mapValues] at h
      cases hv : f v with
      | none => rw [hv] at h; simp at h
      | some v2 =>
          rw [hv] at h
          cases hr : mapValues f rest with
          | none => rw [hr] at h; simp at h
          | some rest2 =>
              rw [hr, Option.some_inj] at h
              subst h
              simp only [addrsFieldsA, List.mem_append] at ha
              rcases ha with ha | ha
              · simp [addrsFieldsA, hf v v2 hv a ha]
              · simp [addrsFieldsA, ih rest2 hr ha]

theorem addrs_optionMap (f : AJson → Option AJson)
    (hf : ∀ x y, f x = some y → ∀ a, a ∈ addrsA y → a ∈ addrsA x)
    (es es2 : List AJson) (h : optionMap f es = some es2) (a : Nat)
    (ha : a ∈ addrsListA es2) : a ∈ addrsListA es := by
  induction es generalizing es2 with
  | nil =>
      simp only [optionMap, Option.some_inj] at h
      subst h
      simpa [addrsListA] using ha
  | cons e rest ih =>
      simp only [optionMap] at h
      cases hv : f e with
      | none => rw [hv] at h; simp at h
      | some e2 =>
          rw [hv] at h
          cases hr : optionMap f rest with
          | none => rw [hr] at h; simp at h
          | some rest2 =>
              rw [hr, Option.some_inj] at h
              subst h
              simp only [addrsListA, List.mem_append] at ha
              rcases ha with ha | ha
              · simp [addrsListA, hf e e2 hv a ha]
              · simp [addrsListA, ih rest2 hr ha]

theorem addrs_transformAlternativeA (alt alt2 : AJson) (a : Nat)
    (h : transformAlternativeA alt = some alt2) (ha : a ∈ addrsA alt2) :
    a ∈ addrsA alt := by
  cases alt with
  | objA b fs =>
      simp only [transformAlternativeA] at h
      cases hp : getKey fs "properties" with
      | none => rw [hp] at h; simp at h
      | some w =>
          rw [hp] at h
          cases w with
          | objA pb pfs =>
              rw [Option.map_eq_some'] at h
              obtain ⟨pfs2, hm, halt2⟩ := h
              subst halt2
              simp only [addrsA, List.mem_cons] at ha
              rcases ha with ha | ha
              · simp [addrsA, ha]
              · rcases addrs_setKey fs "properties" _ a ha with hb | hb
                · simp [addrsA, hb]
                · simp only [addrsA, List.mem_cons] at hb
                  rcases hb with hb | hb
                  · have : a ∈ addrsA (AJson.objA pb pfs) := by simp [addrsA, hb]
                    simp [addrsA, addrs_getKey fs "properties" _ hp a this]
                  · have h2 : a ∈ addrsFieldsA pfs :=
                      addrs_mapValues transformPropertyA
                        (fun x y hxy a2 ha2 => addrs_transformPropertyA x y a2 hxy ha2)
                        pfs pfs2 hm a hb
                    have : a ∈ addrsA (AJson.objA pb pfs) := by simp [addrsA, h2]
                    simp [addrsA, addrs_getKey fs "properties" _ hp a this]
          | nullA b2 => simp at h
          | boolA b2 b3 => simp at h
          | numA b2 n => simp at h
          | strA b2 s2 => simp at h
          | arrA b2 es => simp at h
  | nullA b => simp [transformAlternativeA] at h
  | boolA b b2 => simp [transformAlternativeA] at h
  | numA b n => simp [transformAlternativeA] at h
  | strA b s2 => simp [transformAlternativeA] at h
  | arrA b es => simp [transformAlternativeA] at h

theorem addrs_rewriteFormatA (fmt : AJson) (c : Nat) (fmt2 : AJson) (c2 : Nat)
    (h : rewriteFormatA fmt c = some (fmt2, c2)) :
    (∀ a, a ∈ addrsA fmt2 → a ∈ addrsA fmt ∨ c ≤ a) ∧ c ≤ c2 := by
  cases fmt with
  | objA b fs =>
      simp only [rewriteFormatA] at h
      cases hap : getKey fs "additionalProperties" with
      | none =>
          rw [hap] at h
          simp only [Option.some_inj, Prod.mk.injEq] at h
          obtain ⟨h1, h2⟩ := h
          subst h1
          subst h2
          exact ⟨fun a ha => Or.inl ha, le_refl c⟩
      | some w =>
          rw [hap] at h
          cases w with
          | objA pb apFs =>
              dsimp only at h
              cases ha : getKey apFs "anyOf" with
              | none =>
                  rw [ha] at h
                  simp only [Option.some_inj, Prod.mk.injEq] at h
                  obtain ⟨h1, h2⟩ := h
                  subst h1
                  subst h2
                  constructor
                  · intro a ha2
                    simp only [addrsA, List.mem_cons] at ha2
                    rcases ha2 with ha2 | ha2
                    · exact Or.inl (by simp [addrsA, ha2])
                    · rcases addrs_setKey fs "additionalProperties" _ a ha2 with hb | hb
                      · exact Or.inl (by simp [addrsA, hb])
                      · simp only [addrsA, List.mem_cons] at hb
                        rcases hb with hb | hb
                        · refine Or.inl ?_
                          have : a ∈ addrsA (AJson.objA pb apFs) := by simp [addrsA, hb]
                          simp [addrsA, addrs_getKey fs "additionalProperties" _ hap a this]
                        · rcases addrs_setKey apFs "oneOf" _ a hb with hc | hc
                          · refine Or.inl ?_
                            have : a ∈ addrsA (AJson.objA pb apFs) := by simp [addrsA, hc]
                            simp [addrsA, addrs_getKey fs "additionalProperties" _ hap a this]
                          · simp only [addrsA, addrsListA, List.mem_singleton] at hc
                            exact Or.inr (by omega)
                  · omega
              | some u =>
                  rw [ha] at h
                  cases u with
                  | arrA la alts =>
                      rw [Option.map_eq_some'] at h
                      obtain ⟨alts2, hm, hpair⟩ := h
                      simp only [Prod.mk.injEq] at hpair
                      obtain ⟨h1, h2⟩ := hpair
                      subst h1
                      subst h2
                      constructor
                      · intro a ha2
                        simp only [addrsA, List.mem_cons] at ha2
                        rcases ha2 with ha2 | ha2
                        · exact Or.inl (by simp [addrsA, ha2])
                        · refine Or.inl ?_
                          rcases addrs_setKey fs "additionalProperties" _ a ha2 with hb | hb
                          · simp [addrsA, hb]
                          · have hin : a ∈ addrsA (AJson.objA pb apFs) := by
                              simp only [addrsA, List.mem_cons] at hb
                              rcases hb with hb | hb
                              · simp [addrsA, hb]
                              · rcases addrs_setKey (popKey apFs "anyOf") "oneOf" _ a hb
                                  with hc | hc
                                · simp [addrsA, addrs_popKey apFs "anyOf" a hc]
                                · simp only [addrsA, List.mem_cons] at hc
                                  rcases hc with hc | hc
                                  · have hla : a ∈ addrsA (AJson.arrA la alts) := by
                                      simp [addrsA, hc]
                                    simp [addrsA, addrs_getKey apFs "anyOf" _ ha a hla]
                                  · have hd : a ∈ addrsListA alts :=
                                      addrs_optionMap transformAlternativeA
                                        (fun x y hxy a2 hha =>
                                          addrs_transformAlternativeA x y a2 hxy hha)
                                        alts alts2 hm a hc
                                    have hla : a ∈ addrsA (AJson.arrA la alts) := by
                                      simp [addrsA, hd]
                                    simp [addrsA, addrs_getKey apFs "anyOf" _ ha a hla]
                            simp [addrsA, addrs_getKey fs "additionalProperties" _ hap a hin]
                      · omega
                  | nullA b2 => simp at h
                  | boolA b2 b3 => simp at h
                  | numA b2 n => simp at h
                  | strA b2 s2 => simp at h
                  | objA b2 gs => simp at h
          | nullA b2 => simp at h
          | boolA b2 b3 => simp at h
          | numA b2 n => simp at h
          | strA b2 s2 => simp at h
          | arrA b2 es => simp at h
  | nullA b => simp [rewriteFormatA] at h
  | boolA b b2 => simp [rewriteFormatA] at h
  | numA b n => simp [rewriteFormatA] at h
  | strA b s2 => simp [rewriteFormatA] at h
  | arrA b es => simp [rewriteFormatA] at h

theorem addrs_renameAnyOfA (t : AJson) (p : String) (t2 : AJson) (a : Nat)
    (h : renameAnyOfA t p = some t2) (ha : a ∈ addrsA t2) : a ∈ addrsA t := by
  simp only [renameAnyOfA] at h
  cases hg : getPathA t (streamPropsPath ++ [p]) with
  | none => rw [hg] at h; simp at h
  | some w =>
      rw [hg] at h
      cases w with
      | objA b fs =>
          dsimp only at h
          cases hany : getKey fs "anyOf" with
          | none => rw [hany] at h; simp at h
          | some v =>
              rw [hany] at h
              rcases addrs_setPathA t (streamPropsPath ++ [p]) _ t2 a h ha with hb | hb
              · exact hb
              · have hin : a ∈ addrsA (AJson.objA b fs) := by
                  simp only [addrsA, List.mem_cons] at hb
                  rcases hb with hb | hb
                  · simp [addrsA, hb]
                  · rcases addrs_setKey (popKey fs "anyOf") "oneOf" v a hb with hc | hc
                    · simp [addrsA, addrs_popKey fs "anyOf" a hc]
                    · simp [addrsA, addrs_getKey fs "anyOf" v hany a hc]
                exact addrs_getPathA t (streamPropsPath ++ [p]) _ a hg hin
      | nullA b => simp at h
      | boolA b b2 => simp at h
      | numA b n => simp at h
      | strA b s2 => simp at h
      | arrA b es => simp at h

theorem replace_enumA_elim (t : AJson) (c : Nat) (r : AJson × Nat)
    (h : replace_enumA t c = some r) :
    ∃ fmt fc s1 s2, getPathA t formatPath = some fmt ∧ rewriteFormatA fmt c = some fc ∧
      setPathA t formatPath fc.1 = some s1 ∧ renameAnyOfA s1 "primary_key" = some s2 ∧
      renameAnyOfA s2 "input_schema" = some r.1 ∧ r.2 = fc.2 := by
  simp only [replace_enumA, Option.bind_eq_some] at h
  obtain ⟨fmt, h1, fc, h2, s1, h3, s2, h4, s3, h5, h6⟩ := h
  rw [Option.some_inj] at h6
  subst h6
  exact ⟨fmt, fc, s1, s2, h1, h2, h3, h4, h5, rfl⟩

theorem addrs_replace_enumA (t : AJson) (c : Nat) (r : AJson × Nat)
    (h : replace_enumA t c = some r) :
    (∀ a, a ∈ addrsA r.1 → a ∈ addrsA t ∨ c ≤ a) ∧ c ≤ r.2 := by
  obtain ⟨fmt, fc, s1, s2, h1, h2, h3, h4, h5, h6⟩ := replace_enumA_elim t c r h
  obtain ⟨hr1, hr2⟩ := addrs_rewriteFormatA fmt c fc.1 fc.2 (by rw [h2])
  constructor
  · intro a ha
    have ha2 : a ∈ addrsA s2 := addrs_renameAnyOfA s2 "input_schema" r.1 a h5 ha
    have ha1 : a ∈ addrsA s1 := addrs_renameAnyOfA s1 "primary_key" s2 a h4 ha2
    rcases addrs_setPathA t formatPath fc.1 s1 a h3 ha1 with hb | hb
    · exact Or.inl hb
    · rcases hr1 a hb with hc | hc
      · exact Or.inl (addrs_getPathA t formatPath fmt a h1 hc)
      · exact Or.inr hc
  · rw [h6]
    exact hr2

theorem addrs_add_legacyA (t : AJson) (c : Nat) (r : AJson × Nat)
    (h : add_legacyA t c = some r) :
    (∀ a, a ∈ addrsA r.1 → a ∈ addrsA t ∨ c ≤ a) ∧ c ≤ r.2 := by
  simp only [add_legacyA] at h
  cases hg : getPathA t formatPath with
  | none => rw [hg] at h; simp at h
  | some fmt =>
      rw [hg] at h
      rw [Option.map_eq_some'] at h
      obtain ⟨t2, ht2, hr⟩ := h
      subst hr
      constructor
      · intro a ha
        rcases addrs_setPathA t formatPath _ t2 a ht2 ha with hb | hb
        · exact Or.inl hb
        · simp only [addrsA, addrsFieldsA, addrsListA, List.mem_cons, List.append_nil,
            List.mem_append] at hb
          rcases hb with hb | hb | hb | hb
          · subst hb
            exact Or.inr (le_trans (relabel_le legacy_format_options c) (by omega))
          · subst hb
            exact Or.inr (relabel_le legacy_format_options c)
          · exact Or.inl (addrs_getPathA t formatPath fmt a hg hb)
          · exact Or.inr (relabel_allGE legacy_format_options c a hb)
      · exact le_trans (relabel_le legacy_format_options c) (by omega)

theorem schemaA_allGE (raw : AJson) (c : Nat) (out : AJson) (c2 : Nat)
    (h : schemaA raw c = some (out, c2)) : ∀ a ∈ addrsA out, c ≤ a := by
  intro a ha
  simp only [schemaA, Option.bind_eq_some] at h
  obtain ⟨r1, h1, h2⟩ := h
  have hc0 : c ≤ (deepcopyA raw c).2 := relabel_le (eraseA raw) c
  have hte : ∀ b, b ∈ addrsA (expandRefsA (deepcopyA raw c).1 (deepcopyA raw c).2).1 →
      c ≤ b := by
    intro b hb
    exact le_trans hc0
      (relabel_allGE (expand_refs (eraseA (deepcopyA raw c).1)) (deepcopyA raw c).2 b hb)
  have hc1 : c ≤ (expandRefsA (deepcopyA raw c).1 (deepcopyA raw c).2).2 :=
    le_trans hc0 (relabel_le (expand_refs (eraseA (deepcopyA raw c).1)) (deepcopyA raw c).2)
  obtain ⟨hre, hrc⟩ := addrs_replace_enumA (expandRefsA (deepcopyA raw c).1 (deepcopyA raw c).2).1
    (expandRefsA (deepcopyA raw c).1 (deepcopyA raw c).2).2 r1 h1
  obtain ⟨hal, halc⟩ := addrs_add_legacyA r1.1 r1.2 (out, c2) h2
  rcases hal a ha with hb | hb
  · rcases hre a hb with hc | hc
    · exact hte a hc
    · exact le_trans hc1 hc
  · exact le_trans (le_trans hc1 hrc) hb

/-! ### Frame lemma for stores at an unreachable address -/

theorem addrOf_mem (t : AJson) : addrOf t ∈ addrsA t := by
  cases t <;> simp [addrOf, addrsA]

mutual

theorem mutateAt_not_mem : ∀ (t : AJson) (a : Nat) (x : AJson),
    a ∉ addrsA t → mutateAt t a x = t
  | .nullA b, a, x, h => by
      have hne : b ≠ a := by
        intro he
        exact h (by simp [addrsA, he])
      simp [mutateAt, addrOf, hne]
  | .boolA b b2, a, x, h => by
      have hne : b ≠ a := by
        intro he
        exact h (by simp [addrsA, he])
      simp [mutateAt, addrOf, hne]
  | .numA b n, a, x, h => by
      have hne : b ≠ a := by
        intro he
        exact h (by simp [addrsA, he])
      simp [mutateAt, addrOf, hne]
  | .strA b s2, a, x, h => by
      have hne : b ≠ a := by
        intro he
        exact h (by simp [addrsA, he])
      simp [mutateAt, addrOf, hne]
  | .arrA b es, a, x, h => by
      have hne : b ≠ a := by
        intro he
        exact h (by simp [addrsA, he])
      have hes : a ∉ addrsListA es := by
        intro hm
        exact h (by simp [addrsA, hm])
      simp [mutateAt, addrOf, hne, mutateListAt_not_mem es a x hes]
  | .objA b fs, a, x, h => by
      have hne : b ≠ a := by
        intro he
        exact h (by simp [addrsA, he])
      have hfs : a ∉ addrsFieldsA fs := by
        intro hm
        exact h (by simp [addrsA, hm])
      simp [mutateAt, addrOf, hne, mutateFieldsAt_not_mem fs a x hfs]

theorem mutateListAt_not_mem : ∀ (es : List AJson) (a : Nat) (x : AJson),
    a ∉ addrsListA es → mutateListAt es a x = es
  | [], _, _, _ => rfl
  | e :: es, a, x, h => by
      have h1 : a ∉ addrsA e := by
        intro hm
        exact h (by simp [addrsListA, hm])
      have h2 : a ∉ addrsListA es := by
        intro hm
        exact h (by simp [addrsListA, hm])
      simp [mutateListAt, mutateAt_not_mem e a x h1, mutateListAt_not_mem es a x h2]

theorem mutateFieldsAt_not_mem : ∀ (fs : List (String × AJson)) (a : Nat) (x : AJson),
    a ∉ addrsFieldsA fs → mutateFieldsAt fs a x = fs
  | [], _, _, _ => rfl
  | (k, v) :: fs, a, x, h => by
      have h1 : a ∉ addrsA v := by
        intro hm
        exact h (by simp [addrsFieldsA, hm])
      have h2 : a ∉ addrsFieldsA fs := by
        intro hm
        exact h (by simp [addrsFieldsA, hm])
      simp [mutateFieldsAt, mutateAt_not_mem v a x h1, mutateFieldsAt_not_mem fs a x h2]

end

/-! ### Claims C6 and C9 -/

/-- Addressed fixture: an addressed version of `cexRequired` with
addresses starting at 0. -/
def c6raw : AJson := (relabel cexRequired 0).1

/-- Result of the addressed pipeline on `c6raw` with fresh counter 1000. -/
def c6res : AJson × Nat := (schemaA c6raw 1000).getD (.nullA 0, 0)

/-- One address of the output tree of `c6res`. -/
def c6addr : Nat := (addrsA c6res.1).headD 0

/-- Claim C6 (confirmed, spec-modelled collaborators): `schema()` runs
the three stages on a deep copy of the raw tree.  Whenever the fresh
counter is above every address of the original (as a real allocator
guarantees), every address of the output tree is new: it does not occur
in the original, and a store through it (`mutateAt`) leaves the original
tree completely unchanged - the two trees share no mutable
substructure. -/
theorem claim_C6 (raw : AJson) (c : Nat) (out : AJson) (c2 a : Nat) (x : AJson)
    (hfresh : ∀ b ∈ addrsA raw, b < c)
    (h : schemaA raw c = some (out, c2))
    (ha : a ∈ addrsA out) :
    a ∉ addrsA raw ∧ mutateAt raw a x = raw := by
  have hge : c ≤ a := schemaA_allGE raw c out c2 h a ha
  have hnot : a ∉ addrsA raw := by
    intro hmem
    have := hfresh a hmem
    omega
  exact ⟨hnot, mutateAt_not_mem raw a x hnot⟩

/-- Witness for claim C6 at the fixture tree. -/
theorem claim_C6_witness :
    c6addr ∉ addrsA c6raw ∧ mutateAt c6raw c6addr (.nullA 0) = c6raw :=
  claim_C6 c6raw 1000 c6res.1 c6res.2 c6addr (.nullA 0) (by decide) rfl (by decide)

/-- Results of the addressed pipeline on `c6raw` with two different
allocator states (two independent deep copies of the same raw tree). -/
def c9res1 : AJson × Nat := (schemaA c6raw 100).getD (.nullA 0, 0)

/-- Second run with a different allocator state. -/
def c9res2 : AJson × Nat := (schemaA c6raw 5000).getD (.nullA 0, 0)

/-- Claim C9 (confirmed, spec-modelled collaborators): the pipeline of
`schema()` (expand_refs, replace_enum_allOf_and_anyOf,
add_legacy_format, each applied to an independent deep copy of the same
raw tree) is deterministic: two runs differing only in their allocator
state produce structurally identical trees - equal after erasing the
addresses. -/
theorem claim_C9 (raw : AJson) (c1 c2 : Nat) (o1 o2 : AJson) (d1 d2 : Nat)
    (h1 : schemaA raw c1 = some (o1, d1)) (h2 : schemaA raw c2 = some (o2, d2)) :
    eraseA o1 = eraseA o2 := by
  have e1 := schema_erase raw c1
  have e2 := schema_erase raw c2
  rw [h1] at e1
  rw [h2] at e2
  simp only [Option.map_some'] at e1 e2
  rw [e1, Option.some_inj] at e2
  exact e2

/-- Witness for claim C9 at the fixture tree. -/
theorem claim_C9_witness : eraseA c9res1.1 = eraseA c9res2.1 :=
  claim_C9 c6raw 100 5000 c9res1.1 c9res2.1 c9res1.2 c9res2.2 rfl rfl

end AirbyteFileBasedSpec
